import Mathlib

/-!
Verification of the eberban-semantics pipeline (lexer → parser → semantic
translator) against its natural-language specification.

The Rust sources are shallowly embedded:
* `src/lib.rs` — `ChainingBehavior`, `PredicateChaining`, `Exposure`,
  `Negation` and its `BitXor` instance;
* `src/lexer.rs` — the phonotactic lexer, embedded as PEG-style parser
  combinators over `List Char` (chumsky's `choice` is ordered choice,
  `repeated` is greedy without backtracking over the repetition count);
* `src/parser.rs` — the `PredicateTree` tree type of the grammar parser and
  its `negate` / `to_binding` operations;
* `src/expr.rs` — the output IR `Predicate` and the semantic translator
  `to_expr` / `to_expr_`.

`Vec` is modelled as `List`; a `BTreeSet` that is only iterated is modelled
as the list of its elements in iteration order; the `BTreeMap`-based symbol
table is modelled as an association list (it is never iterated, only keyed
accesses occur).  Rust code that can panic (`unwrap`) is modelled in the
`Option` monad: a `none` result marks a panic.
-/

namespace Eberban

/-- `pub type GrammarVar = u8` (src/lib.rs). Modelled as `Nat`; no modelled
operation wraps around. -/
abbrev GrammarVar := Nat

/-- `enum PredicateChaining { Sharing, Equivalence }` (src/lib.rs). -/
inductive PredicateChaining where
  | Sharing
  | Equivalence
  deriving DecidableEq, Repr, Ord

/-- `struct ChainingBehavior { var: GrammarVar, chain_with: PredicateChaining }`
(src/lib.rs). -/
structure ChainingBehavior where
  var : GrammarVar
  chain_with : PredicateChaining
  deriving DecidableEq, Repr

/-- `enum Exposure` (src/lib.rs). -/
inductive Exposure where
  | Standard
  | Transparent
  | Modified (vars : List GrammarVar)
  | Explicit (args : List (String × PredicateChaining))
  deriving DecidableEq, Repr

/-- `enum Negation { None, Short, Long, Both }` (src/lib.rs). -/
inductive Negation where
  | None
  | Short
  | Long
  | Both
  deriving DecidableEq, Repr, Fintype

namespace Negation

/-- `Negation::new(short, long)` (src/lib.rs). -/
def new (short long : Bool) : Negation :=
  match short, long with
  | false, false => .None
  | true, false => .Short
  | false, true => .Long
  | true, true => .Both

/-- `Negation::short` (src/lib.rs). -/
def short : Negation → Bool
  | .Short | .Both => true
  | _ => false

/-- `Negation::long` (src/lib.rs). -/
def long : Negation → Bool
  | .Long | .Both => true
  | _ => false

/-- `impl BitXor for Negation` (src/lib.rs): xor of the `short` and `long`
flags, recombined with `Negation::new`. -/
def bxor (a b : Negation) : Negation :=
  new (xor a.short b.short) (xor a.long b.long)

end Negation

/-- The `PredicateWord { word, chaining }` token payload that the grammar
parser builds predicate leaves from (src/parser.rs). -/
structure PredicateWord where
  word : String
  chaining : ChainingBehavior
  deriving DecidableEq, Repr

namespace Syn

/-- `enum PredicateTree` as declared in src/parser.rs: `Leaf`, `Negation`
and `Binding`.  `Vec<BTreeSet<_>>` sharers are modelled as the list of sets
in place order, each set as the list of its elements in iteration order. -/
inductive PredicateTree where
  | Leaf (word : PredicateWord)
  | Negation (negation : Eberban.Negation) (pred : PredicateTree)
  | Binding (chaining : ChainingBehavior) (root : PredicateTree)
      (negation : Eberban.Negation) (exposure : Exposure)
      (sharers : List (List (PredicateChaining × PredicateTree)))
      (and : List PredicateTree)
  deriving Repr

/-- `PredicateTree::negate` (src/parser.rs lines 52-85). -/
def PredicateTree.negate (self : PredicateTree) (orig_negation : Eberban.Negation) :
    PredicateTree :=
  if orig_negation = .None then
    self
  else
    match self with
    | .Leaf w => .Negation orig_negation (.Leaf w)
    | .Negation negation pred =>
      let negation := orig_negation.bxor negation
      match negation with
      | .None => pred
      | negation => .Negation negation pred
    | .Binding chaining root negation exposure sharers and_ =>
      .Binding chaining root (orig_negation.bxor negation) exposure sharers and_

/-- `let n = Negation::new(zi.len() % 2 == 1, bi.len() % 2 == 1)` computed by
the `binding` production from the counts of leading `bi` (long) and `zi`
(short) negation particles (src/parser.rs line 195). -/
def bindingNegation (biCount ziCount : Nat) : Eberban.Negation :=
  Negation.new (ziCount % 2 == 1) (biCount % 2 == 1)

/-- Top-level negation well-formedness: the shape invariant the parser
maintains for the trees it builds.  `negate` only ever wraps a `Leaf` in a
`Negation` node, and only with a non-trivial negation. -/
def PredicateTree.negTopWellFormed : PredicateTree → Prop
  | .Negation n (.Leaf _) => n ≠ .None
  | .Negation _ _ => False
  | _ => True

end Syn

/-! ## Phonotactics lexer (src/lexer.rs)

The chumsky combinators are embedded PEG-style over `List Char`: a parser is
a partial function from the input to a value and the remaining input.
`choice`/`or` is ordered choice with rewind on failure, `then` is
sequencing, `repeated` is greedy repetition that stops at the first failure
(no backtracking over the repetition count), `or_not` is an option with
rewind.  Greedy repetition is implemented with fuel `input.length + 1`,
which is exhaustive because every repeated element parser of the lexer
consumes at least one character per success. -/

/-- A PEG parser over characters. -/
def P (α : Type) : Type := List Char → Option (α × List Char)

/-- `just(c)`: match exactly the character `c`. -/
def pjust (c : Char) : P Char := fun s =>
  match s with
  | c' :: rest => if c' = c then some (c, rest) else none
  | [] => none

/-- `just("…")`: match exactly the given character sequence. -/
def pstring : List Char → P (List Char)
  | [], s => some ([], s)
  | c :: cs, s =>
    match pjust c s with
    | some (_, s1) =>
      match pstring cs s1 with
      | some (_, s2) => some (c :: cs, s2)
      | none => none
    | none => none

/-- `filter(f)`: match one character satisfying `f`. -/
def pfilter (f : Char → Bool) : P Char := fun s =>
  match s with
  | c :: rest => if f c then some (c, rest) else none
  | [] => none

/-- `.map(f)`. -/
def pmap (p : P α) (f : α → β) : P β := fun s =>
  match p s with
  | some (a, rest) => some (f a, rest)
  | none => none

/-- `.map(f)` for a closure containing an `unwrap`: `f` returning `none`
marks the (unreachable) panic path of the closure. -/
def pmapOpt (p : P α) (f : α → Option β) : P β := fun s =>
  match p s with
  | some (a, rest) =>
    match f a with
    | some b => some (b, rest)
    | none => none
  | none => none

/-- `.then(q)`. -/
def pthen (p : P α) (q : P β) : P (α × β) := fun s =>
  match p s with
  | some (a, s1) =>
    match q s1 with
    | some (b, s2) => some ((a, b), s2)
    | none => none
  | none => none

/-- `.ignore_then(q)`. -/
def pignore_then (p : P α) (q : P β) : P β := pmap (pthen p q) (fun x => x.2)

/-- `.then_ignore(q)`. -/
def pthen_ignore (p : P α) (q : P β) : P α := pmap (pthen p q) (fun x => x.1)

/-- `.or(q)` / binary `choice`: ordered choice with rewind. -/
def porelse (p q : P α) : P α := fun s =>
  match p s with
  | some r => some r
  | none => q s

/-- The always-failing parser (empty `choice`). -/
def pfail : P α := fun _ => none

/-- `choice([...])` over a list of alternatives, in order. -/
def pchoice (ps : List (P α)) : P α := ps.foldr porelse pfail

/-- `.or_not()`. -/
def por_not (p : P α) : P (Option α) := fun s =>
  match p s with
  | some (a, rest) => some (some a, rest)
  | none => some (none, s)

/-- Greedy repetition worker, one unit of fuel per attempted element. -/
def manyAux (p : P α) : Nat → List Char → List α × List Char
  | 0, s => ([], s)
  | fuel + 1, s =>
    match p s with
    | none => ([], s)
    | some (a, s1) =>
      let (as, s2) := manyAux p fuel s1
      (a :: as, s2)

/-- `.repeated()`: zero or more, greedy. -/
def pmany (p : P α) : P (List α) := fun s => some (manyAux p (s.length + 1) s)

/-- `.repeated().at_least(1)`. -/
def pmany1 (p : P α) : P (List α) :=
  pmap (pthen p (pmany p)) (fun x => x.1 :: x.2)

/-- `end()`. -/
def pend : P Unit := fun s =>
  match s with
  | [] => some ((), [])
  | _ :: _ => none

/-- `VOWELS` (src/lexer.rs line 9). -/
def VOWELS : List Char := ['i', 'e', 'a', 'o', 'u']

/-- `NON_SONORANT` (src/lexer.rs lines 10-12). -/
def NON_SONORANT : List Char :=
  ['m', 'p', 'b', 'f', 'v', 't', 'd', 's', 'z', 'c', 'j', 'k', 'g']

/-- `SONORANT` (src/lexer.rs line 13). -/
def SONORANT : List Char := ['n', 'r', 'l']

/-- `INITIAL_PAIRS` (src/lexer.rs lines 14-84), including the duplicated
`('v','l')` entry of the source. -/
def INITIAL_PAIRS : List (Char × Char) :=
  [('b', 'z'), ('b', 'j'), ('b', 'r'), ('b', 'l'),
   ('d', 'z'), ('d', 'j'), ('d', 'r'),
   ('g', 'z'), ('g', 'j'), ('g', 'n'), ('g', 'r'),
   ('v', 'l'), ('v', 'z'), ('v', 'j'), ('v', 'n'), ('v', 'r'), ('v', 'l'),
   ('z', 'b'), ('z', 'd'), ('z', 'g'), ('z', 'v'), ('z', 'm'), ('z', 'n'),
   ('z', 'r'), ('z', 'l'),
   ('j', 'b'), ('j', 'd'), ('j', 'g'), ('j', 'v'), ('j', 'm'), ('j', 'n'),
   ('j', 'r'), ('j', 'l'),
   ('c', 'f'), ('c', 'k'), ('c', 't'), ('c', 'p'), ('c', 'm'), ('c', 'n'),
   ('c', 'r'), ('c', 'l'),
   ('s', 'f'), ('s', 'k'), ('s', 't'), ('s', 'p'), ('s', 'm'), ('s', 'n'),
   ('s', 'r'), ('s', 'l'),
   ('f', 'c'), ('f', 's'), ('f', 'n'), ('f', 'r'), ('f', 'l'),
   ('k', 'c'), ('k', 's'), ('k', 'n'), ('k', 'r'), ('k', 'l'),
   ('t', 'c'), ('t', 's'), ('t', 'r'),
   ('p', 'c'), ('p', 's'), ('p', 'r'), ('p', 'l'),
   ('m', 'n'), ('m', 'r'), ('m', 'l')]

/-- `MEDIAL_PAIRS` (src/lexer.rs lines 85-122). -/
def MEDIAL_PAIRS : List (Char × Char) :=
  [('b', 'd'), ('b', 'g'), ('b', 'v'), ('b', 'm'),
   ('d', 'b'), ('d', 'g'), ('d', 'v'), ('d', 'm'),
   ('g', 'b'), ('g', 'd'), ('g', 'v'), ('g', 'm'),
   ('v', 'b'), ('v', 'd'), ('v', 'g'), ('v', 'm'),
   ('f', 'k'), ('f', 't'), ('f', 'p'), ('f', 'm'),
   ('k', 'f'), ('k', 't'), ('k', 'p'), ('k', 'm'),
   ('t', 'f'), ('t', 'k'), ('t', 'p'), ('t', 'm'),
   ('p', 'f'), ('p', 'k'), ('p', 't'), ('p', 'm'),
   ('n', 'r'), ('n', 'l'), ('r', 'n'), ('l', 'n')]

/-- `enum FiVar` (src/lexer.rs lines 167-173). -/
inductive FiVar where
  | None
  | Var (v : GrammarVar)
  | Same
  | Next
  deriving DecidableEq, Repr

/-- `enum PredicateFamily` (src/lexer.rs lines 136-141). -/
inductive PredicateFamily where
  | Root
  | Borrowing
  | Freeform
  deriving DecidableEq, Repr

/-- `enum ParticleFamily` (src/lexer.rs lines 143-165). -/
inductive ParticleFamily where
  | Pe
  | Pei
  | Vi (var : Option GrammarVar) (chain_with : PredicateChaining)
  | Fi (var : FiVar) (chain_with : PredicateChaining)
  | Vei
  | Ki
  | Gi (chaining : ChainingBehavior)
  | Be
  | Mi (chaining : ChainingBehavior)
  | Si (exposure : Exposure) (chaining : ChainingBehavior)
  | Other
  deriving DecidableEq, Repr

/-- `enum WordClass` (src/lexer.rs lines 130-134). -/
inductive WordClass where
  | Particle (family : ParticleFamily)
  | Predicate (family : PredicateFamily) (chaining : ChainingBehavior)
  deriving DecidableEq, Repr

/-- `struct Word { word, class }` (src/lexer.rs lines 124-128); the `class`
field is called `wordClass` (`class` is a Lean keyword). -/
structure Word where
  word : String
  wordClass : WordClass
  deriving DecidableEq, Repr

/-- The per-letter parser of the `letter` table (src/lexer.rs lines
176-187): a maximal run of the letter in either case, collapsed to one
lowercase occurrence. -/
def letterP (c : Char) : P Char :=
  pmap (pmany1 (porelse (pjust c) (pjust c.toUpper))) (fun _ => c)

/-- `pause` (src/lexer.rs line 188): zero or more whitespace or `'`. -/
def pause : P (List Char) :=
  pmany (pfilter (fun c => c.isWhitespace || c = '\''))

/-- `pause.at_least(1)`. -/
def pause1 : P (List Char) :=
  pmany1 (pfilter (fun c => c.isWhitespace || c = '\''))

/-- `vowel` (line 190). -/
def vowel : P Char := pchoice (VOWELS.map letterP)

/-- `non_sonorant` (line 191). -/
def non_sonorant : P Char := pchoice (NON_SONORANT.map letterP)

/-- `sonorant` (line 192). -/
def sonorant : P Char := pchoice (SONORANT.map letterP)

/-- `initial_pair` (line 194): exact two-character clusters. -/
def initial_pair : P (Char × Char) :=
  pchoice (INITIAL_PAIRS.map (fun p => pthen (pjust p.1) (pjust p.2)))

/-- `medial_pair` (line 195). -/
def medial_pair : P (Char × Char) :=
  pchoice (MEDIAL_PAIRS.map (fun p => pthen (pjust p.1) (pjust p.2)))

/-- `nonsonorant_particle` (lines 197-235). -/
def nonsonorant_particleP : P (String × ParticleFamily) :=
  pignore_then pause
    (pmap
      (pthen non_sonorant
        (pmap
          (pthen (pmany1 vowel)
            (pmany (pmap (pthen (pjust 'h') (pmany1 vowel))
              (fun x => x.1 :: x.2))))
          (fun x => x.1 ++ x.2.flatten)))
      (fun x =>
        let c := x.1
        let w := c :: x.2
        (String.mk w,
         if c = 'k' then ParticleFamily.Ki
         else if c = 'g' then
           ParticleFamily.Gi
             (if c = 'i' then ⟨0, .Sharing⟩
              else if w.getLast? = some 'i' then ⟨1, .Equivalence⟩
              else ⟨1, .Sharing⟩)
         else ParticleFamily.Other)))

/-- `sonorant_or_vowel_particle` (lines 236-258). -/
def sonorant_or_vowel_particleP : P (String × ParticleFamily) :=
  pignore_then pause1
    (pmap
      (pthen
        (pthen
          (porelse (pmap (pthen sonorant vowel) (fun x => (some x.1, x.2)))
            (pmap vowel (fun v => (none, v))))
          (pmany (pmap (pthen (porelse (pjust 'h') sonorant) (pmany1 vowel))
            (fun x => x.1 :: x.2))))
        (por_not sonorant))
      (fun x =>
        let ab := x.1.1
        let c := x.1.2
        let d := x.2
        (String.mk (ab.1.toList ++ [ab.2] ++ c.flatten ++ d.toList),
         ParticleFamily.Other)))

/-- `mi` (lines 260-282). -/
def miP : P (String × ParticleFamily) :=
  pignore_then pause
    (pmap
      (pchoice (["mai", "mao", "mui", "mue", "mua", "mio", "mie", "moe",
        "ma", "mi", "mo", "me"].map (fun w => pstring w.toList)))
      (fun w =>
        (String.mk w,
         ParticleFamily.Mi
           (if w = "mua".toList then ⟨1, .Equivalence⟩
            else ⟨0, .Sharing⟩))))

/-- `arg_vowel` (lines 284-295): one of `e a o u` with its place index. -/
def arg_vowel : P (Char × Nat) :=
  pmap (pchoice (['e', 'a', 'o', 'u'].map pjust))
    (fun v => (v, if v = 'e' then 0 else if v = 'a' then 1
      else if v = 'o' then 2 else 3))

/-- The first `si` branch (lines 298-309): `s i <arg_vowel>` →
`Transparent` exposure, Equivalence chaining at the named place. -/
def siB1 : P (String × ParticleFamily) :=
  pmap (pignore_then (pjust 'i') arg_vowel)
    (fun vi =>
      (String.mk ['s', 'i', vi.1],
       ParticleFamily.Si .Transparent ⟨vi.2, .Equivalence⟩))

/-- The `si h` alternative (lines 311-314): `i h <arg_vowel> i`. -/
def siB2a : P ((List (Char × Nat) × Option (Char × Nat)) × Option Char) :=
  pthen
    (pthen (pmap (pjust 'i') (fun _ => ([] : List (Char × Nat))))
      (pmap (pignore_then (pjust 'h') arg_vowel) some))
    (pmap (pjust 'i') some)

/-- The general `si` alternative (lines 315-319):
`<arg_vowel>+ (h <arg_vowel>)? i?`. -/
def siB2b : P ((List (Char × Nat) × Option (Char × Nat)) × Option Char) :=
  pthen
    (pthen (pmany1 arg_vowel)
      (por_not (pignore_then (pjust 'h') arg_vowel)))
    (por_not (pjust 'i'))

/-- The shared `si` map (lines 321-342).  Note that the built spelling
drops the consumed `i` (of `siB2a`) and `h` markers.  `vs.last().unwrap()`
is a `none` on the unreachable empty-`vs`-and-no-`b` path. -/
def siB23 : P (String × ParticleFamily) :=
  pmapOpt (porelse siB2a siB2b)
    (fun x =>
      let vs : List (Char × Nat) := x.1.1
      let b : Option (Char × Nat) := x.1.2
      let i : Option Char := x.2
      (match b with
       | some bv => some bv.2
       | none => (vs.getLast?).map (fun p => p.2) : Option Nat).map
        (fun cvar =>
          (String.mk ('s' :: (vs.map (fun p => p.1)
             ++ (b.map (fun p => p.1)).toList ++ i.toList)),
           ParticleFamily.Si (.Modified (vs.map (fun p => p.2)))
             ⟨cvar, if i.isSome then .Equivalence else .Sharing⟩)))

/-- `si` (lines 296-344). -/
def siP : P (String × ParticleFamily) :=
  pignore_then pause (pignore_then (pjust 's') (porelse siB1 siB23))

/-- `vi` (lines 346-371). -/
def viP : P (String × ParticleFamily) :=
  pignore_then pause
    (porelse
      (pmap (pthen (pjust 'v') (pthen (por_not (pjust 'i')) arg_vowel))
        (fun x =>
          let i := x.2.1
          let av := x.2.2
          (String.mk (x.1 :: (i.toList ++ [av.1])),
           ParticleFamily.Vi (some av.2)
             (if i.isSome then .Equivalence else .Sharing))))
      (pmap (pstring "vi".toList)
        (fun _ => ("vi", ParticleFamily.Vi none .Sharing))))

/-- `fi` (lines 372-433). -/
def fiP : P (String × ParticleFamily) :=
  pignore_then pause
    (porelse (pmap (pstring "feu".toList)
        (fun _ => ("feu", ParticleFamily.Fi .Same .Sharing)))
      (porelse (pmap (pstring "fau".toList)
          (fun _ => ("fau", ParticleFamily.Fi .Next .Sharing)))
        (porelse (pmap (pstring "fei".toList)
            (fun _ => ("fei", ParticleFamily.Fi .Same .Equivalence)))
          (porelse (pmap (pstring "fai".toList)
              (fun _ => ("fai", ParticleFamily.Fi .Next .Equivalence)))
            (porelse
              (pmap (pthen (pjust 'f') (pthen (por_not (pjust 'i')) arg_vowel))
                (fun x =>
                  let i := x.2.1
                  let av := x.2.2
                  (String.mk (x.1 :: (i.toList ++ [av.1])),
                   ParticleFamily.Fi (.Var av.2)
                     (if i.isSome then .Equivalence else .Sharing))))
              (pmap (pstring "fi".toList)
                (fun _ => ("fi", ParticleFamily.Fi .None .Sharing))))))))

/-- `vei` (lines 434-436). -/
def veiP : P (String × ParticleFamily) :=
  pignore_then pause (pmap (pstring "vei".toList)
    (fun _ => ("vei", ParticleFamily.Vei)))

/-- `be` (lines 437-439). -/
def beP : P (String × ParticleFamily) :=
  pignore_then pause (pmap (pstring "be".toList)
    (fun _ => ("be", ParticleFamily.Be)))

/-- `pe` (lines 441-443). -/
def peP : P (String × ParticleFamily) :=
  pignore_then pause (pmap (pstring "pe".toList)
    (fun _ => ("pe", ParticleFamily.Pe)))

/-- `pei` (lines 444-446). -/
def peiP : P (String × ParticleFamily) :=
  pignore_then pause (pmap (pstring "pei".toList)
    (fun _ => ("pei", ParticleFamily.Pei)))

/-- `specific_particle` (line 448): fixed priority order. -/
def specific_particle : P (String × ParticleFamily) :=
  porelse peiP (porelse peP (porelse beP (porelse veiP
    (porelse viP (porelse fiP (porelse miP siP))))))

/-- `particle` (lines 450-458). -/
def particleP : P Word :=
  pmap (porelse specific_particle
      (porelse nonsonorant_particleP sonorant_or_vowel_particleP))
    (fun x => Word.mk x.1 (.Particle x.2))

/-- `root_mix` (lines 460-465): a medial pair, `h`, or a sonorant, followed
by at least one vowel. -/
def root_mix : P (List Char) :=
  pmap
    (pthen
      (porelse (pmap medial_pair (fun p => (p.1, some p.2)))
        (pmap (porelse (pjust 'h') sonorant) (fun c => (c, none))))
      (pmany1 vowel))
    (fun x => x.1.1 :: (x.1.2.toList ++ x.2))

/-- `required_string` (lines 466-471): like `root_mix` but without the `h`
alternative. -/
def required_string : P (List Char) :=
  pmap
    (pthen
      (porelse (pmap medial_pair (fun p => (p.1, some p.2)))
        (pmap sonorant (fun c => (c, none))))
      (pmany1 vowel))
    (fun x => x.1.1 :: (x.1.2.toList ++ x.2))

/-- Lines 488-507: the chaining classification of a nonsonorant root from
its spelling; `w.chars().last().unwrap()` is `none` on the unreachable
empty spelling. -/
def classifyNonsonorantRoot (w : List Char) :
    Option (List Char × ChainingBehavior) :=
  (w.getLast?).map (fun last =>
    (w,
     if last = 'i' then ⟨1, .Equivalence⟩
     else if VOWELS.contains last then ⟨1, .Sharing⟩
     else ⟨0, .Sharing⟩))

/-- Lines 518-537: the chaining classification of an initial-pair root;
a spelling of length exactly 3 is classified Equivalence-at-1 regardless
of its final phoneme. -/
def classifyInitialPairRoot (w : List Char) :
    Option (List Char × ChainingBehavior) :=
  (w.getLast?).map (fun last =>
    (w,
     if last = 'i' ∨ w.length = 3 then (⟨1, .Equivalence⟩ : ChainingBehavior)
     else if VOWELS.contains last then ⟨1, .Sharing⟩
     else ⟨0, .Sharing⟩))

/-- `nonsonorant_root` (lines 472-507). -/
def nonsonorant_root : P (List Char × ChainingBehavior) :=
  pmapOpt
    (pthen
      (pmap (pthen non_sonorant (pmany1 vowel)) (fun x => x.1 :: x.2))
      (porelse
        (pthen
          (pmap
            (pthen
              (porelse required_string
                (pmap (pthen (pmany root_mix) required_string)
                  (fun x => x.1.flatten ++ x.2)))
              (pmany root_mix))
            (fun x => x.1 ++ x.2.flatten))
          (por_not sonorant))
        (pmap sonorant (fun sn => (([] : List Char), some sn)))))
    (fun x => classifyNonsonorantRoot (x.1 ++ x.2.1 ++ x.2.2.toList))

/-- `initial_pair_root` (lines 508-537). -/
def initial_pair_root : P (List Char × ChainingBehavior) :=
  pmapOpt
    (pthen
      (pthen
        (pmap (pthen initial_pair (pmany1 vowel))
          (fun x => x.1.1 :: x.1.2 :: x.2))
        (pmany root_mix))
      (por_not sonorant))
    (fun x => classifyInitialPairRoot (x.1.1 ++ x.1.2.flatten ++ x.2.toList))

/-- `root` (lines 538-540). -/
def rootP : P (List Char × ChainingBehavior × PredicateFamily) :=
  pignore_then pause
    (pmap (porelse nonsonorant_root initial_pair_root)
      (fun x => (x.1, x.2, PredicateFamily.Root)))

/-- `predicate` (lines 541-544). -/
def predicateP : P Word :=
  pmap rootP (fun x => Word.mk (String.mk x.1) (.Predicate x.2.2 x.2.1))

/-- `word` (line 546): predicates take priority over particles. -/
def wordP : P Word := porelse predicateP particleP

/-- `lexer` (lines 175-549): `word.repeated().then_ignore(pause.then(end()))`. -/
def lex (s : List Char) : Option (List Word) :=
  match pthen_ignore (pmany wordP) (pthen pause pend) s with
  | some (ws, _) => some ws
  | none => none

/-! ## Semantic translator (src/expr.rs) -/

/-- `pub type Var = usize` (src/expr.rs). -/
abbrev Var := Nat

/-- `enum Predicate` — the output IR (src/expr.rs lines 10-33). -/
inductive Predicate where
  | Leaf (word : String) (id : Nat) (apply_to : List Nat)
  | Not (pred : Predicate)
  | And (preds : List Predicate)
  | Exists (vars : List Nat) (pred : Predicate)
  | Equivalent (var : Nat) (pred : Predicate)
  | Lambda (vars : List Nat) (pred : Predicate)
  deriving Repr

/-- The `PredicateTree` shape consumed by `to_expr_` (src/expr.rs lines
157-178): `Leaf(word)` with `word.word : String`, and `Binding { chaining,
root, negated, exposure, sharers, and }` with a boolean `negated` field.
`Vec<BTreeSet<_>>` sharers are the list of per-place sets in place order,
each set as the list of its elements in iteration order; `and` likewise. -/
inductive PredicateTree where
  | Leaf (word : PredicateWord)
  | Binding (chaining : ChainingBehavior) (root : PredicateTree) (negated : Bool)
      (exposure : Exposure)
      (sharers : List (List (PredicateChaining × PredicateTree)))
      (and : List PredicateTree)
  deriving Repr

/-- The translator's threaded state: the `max_var` and `max_id` counters and
the `BTreeMap<String, Vec<usize>>` symbol table.  The map is modelled as an
association list (it is only ever accessed by key, never iterated); each
per-spelling `Vec` id stack is modelled with its head as the stack top
(the `Vec`'s last element). -/
structure TState where
  maxVar : Nat
  maxId : Nat
  symbolTable : List (String × List Nat)
  deriving Repr, DecidableEq

/-- Keyed lookup in the symbol-table association list. -/
def stLookup : List (String × List Nat) → String → Option (List Nat)
  | [], _ => none
  | (k, v) :: rest, w => if k = w then some v else stLookup rest w

/-- Keyed update/insert in the symbol-table association list. -/
def stSet : List (String × List Nat) → String → List Nat → List (String × List Nat)
  | [], w, v => [(w, v)]
  | (k, v0) :: rest, w, v =>
    if k = w then (k, v) :: rest else (k, v0) :: stSet rest w v

/-- `symbol_table.entry(word).or_default().push(id)` (src/expr.rs line 226). -/
def stPush (m : List (String × List Nat)) (w : String) (id : Nat) :
    List (String × List Nat) :=
  match stLookup m w with
  | some stack => stSet m w (id :: stack)
  | none => stSet m w [id]

/-- The `if preds.len() == 1 { preds.pop().unwrap() } else { Predicate::And
{ preds } }` idiom used at every scope exit (src/expr.rs lines 138-141,
292-296, 313-317, 354-358, 376-380). -/
def collapseAnd : List Predicate → Predicate
  | [p] => p
  | ps => Predicate.And ps

/-- Lines 184-203: for a `Sharing` caller, rebuild the per-place variable
vector `(0..sharers.len()).map(|i| if i == chain_place { chain_var } else
{ fresh })`, recording each fresh variable in `close_over` in allocation
order.  Returns `(vars, close_over delta, updated max_var)`. -/
def allocSharingVars (chainVar : Nat) (chainPlace : Nat) (mv : Nat) :
    List Nat → List Nat × List Nat × Nat
  | [] => ([], [], mv)
  | i :: rest =>
    if i = chainPlace then
      let (vs, co, mv') := allocSharingVars chainVar chainPlace mv rest
      (chainVar :: vs, co, mv')
    else
      let (vs, co, mv') := allocSharingVars chainVar chainPlace (mv + 1) rest
      (mv :: vs, mv :: co, mv')

/-- Lines 212-243: the `Explicit`-exposure introduction loop.  For the `i`-th
named place: allocate a fresh variable; if place `i` exists in `vars`, push
the fresh variable onto `close_over` and swap it into `vars` (the emitted
fact uses the old, caller-visible variable); otherwise push it onto the
caller's free-variable list and use it directly.  Allocate a fresh
identity-id, shadow-push it onto the spelling's id stack, and emit a `Leaf`
fact (Sharing) or an `Equivalent` assertion (Equivalence).  Returns
`(updated vars, close_over delta, new-vars delta, emitted preds, state)`. -/
def explicitIntro (st : TState) (i : Nat) (vars : List Nat) :
    List (String × PredicateChaining) →
    List Nat × List Nat × List Nat × List Predicate × TState
  | [] => (vars, [], [], [], st)
  | (word, chain_with) :: rest =>
    let v := st.maxVar
    let st1 := { st with maxVar := v + 1 }
    let (vars1, coΔ, nvΔ, use) :=
      match vars[i]? with
      | some old => (vars.set i v, [v], ([] : List Nat), old)
      | none => (vars, [], [v], v)
    let id := st1.maxId
    let st2 := { st1 with
      maxId := id + 1
      symbolTable := stPush st1.symbolTable word id }
    let emitted :=
      match chain_with with
      | .Sharing => Predicate.Leaf word id [use]
      | .Equivalence => Predicate.Equivalent use (Predicate.Leaf word id [])
    let (vars', co', nv', ps', st') := explicitIntro st2 (i + 1) vars1 rest
    (vars', coΔ ++ co', nvΔ ++ nv', emitted :: ps', st')

/-- Lines 369-373: the `Explicit`-exposure exit pops each named spelling's id
stack; `get_mut(word).unwrap()` panics (`none`) if the key is absent, while
`Vec::pop` on an empty stack is a silent no-op. -/
def explicitPop (m : List (String × List Nat)) :
    List (String × PredicateChaining) → Option (List (String × List Nat))
  | [] => some m
  | (word, _) :: rest =>
    match stLookup m word with
    | some stack => explicitPop (stSet m word stack.tail) rest
    | none => none

mutual

/-- `to_expr_` (src/expr.rs lines 147-399), in delta style: given the tree,
the caller's chaining mode, the caller-supplied per-place variables and the
threaded state, return the updated state, the variables appended to the
caller's `new_vars` and the predicates appended to the caller's `preds`.
`none` is a panic.  (`sharers.len() as u8` truncation is not modelled:
inputs are assumed to have at most 255 argument places.) -/
def toExpr_ (tree : PredicateTree) (chaining_with : PredicateChaining)
    (vars : List Nat) (st : TState) :
    Option (TState × List Nat × List Predicate) :=
  match tree with
  | .Leaf word =>
    -- Lines 158-170: anaphoric identity lookup; `.last().unwrap()` panics on
    -- an emptied id stack.
    (match stLookup st.symbolTable word.word with
     | some stack =>
       match stack.head? with
       | some id => some (st, [], [Predicate.Leaf word.word id vars])
       | none => none
     | none =>
       let i := st.maxId
       some ({ st with
                maxId := i + 1
                symbolTable := stSet st.symbolTable word.word [i] },
             [], [Predicate.Leaf word.word i vars]))
  | .Binding _chaining root negated exposure sharers and_ => do
    let chain_place : Nat :=
      match exposure with
      | .Modified vec => vec.head?.getD 0
      | _ => 0
    let (vars1, closeOver0, nvΔ0, st0) :=
      match chaining_with with
      | .Sharing =>
        match vars.head? with
        | some chainVar =>
          let (vs, co, mv) :=
            allocSharingVars chainVar chain_place st.maxVar
              (List.range sharers.length)
          (vs, co, ([] : List Nat), { st with maxVar := mv })
        | none =>
          let chainVar := st.maxVar
          let (vs, co, mv) :=
            allocSharingVars chainVar chain_place (st.maxVar + 1)
              (List.range sharers.length)
          (vs, chainVar :: co, ([] : List Nat), { st with maxVar := mv })
      | .Equivalence =>
        let extra := List.range' st.maxVar (sharers.length - vars.length)
        (vars ++ extra, [], extra, { st with maxVar := st.maxVar + extra.length })
    let (vars2, closeOver, nvΔ1, explicitPreds, st1) :=
      match exposure with
      | .Explicit vec =>
        let (vs, co, nv, ps, st') := explicitIntro st0 0 vars1 vec
        (vs, closeOver0 ++ co, nv, ps, st')
      | _ => (vars1, closeOver0, ([] : List Nat), ([] : List Predicate), st0)
    let closure_needed := !closeOver.isEmpty
    let (st2, rootNv, rootPreds) ← toExpr_ root .Equivalence vars2 st1
    let (st3, shNv, shPreds) ← sharerSets exposure sharers vars2 st2
    let (st4, andPreds) ← andTrees and_ st3
    let st5 ←
      match exposure with
      | .Explicit vec => do
        let m ← explicitPop st4.symbolTable vec
        some { st4 with symbolTable := m }
      | _ => some st4
    if closure_needed || negated then
      let inner := rootPreds ++ shPreds ++ (if negated then andPreds else [])
      let p := collapseAnd inner
      let p := if closure_needed then
          Predicate.Exists (closeOver ++ rootNv ++ shNv) p
        else p
      let p := if negated then Predicate.Not p else p
      some (st5, nvΔ0 ++ nvΔ1,
        explicitPreds ++ (if negated then [] else andPreds) ++ [p])
    else
      some (st5, nvΔ0 ++ nvΔ1 ++ rootNv ++ shNv,
        explicitPreds ++ rootPreds ++ shPreds ++ andPreds)

/-- Lines 265-333, outer loop: `for (set, var) in sharers.into_iter()
.zip(vars)` — the zip truncates at the shorter list. -/
def sharerSets (exposure : Exposure)
    (sets : List (List (PredicateChaining × PredicateTree)))
    (vars : List Nat) (st : TState) :
    Option (TState × List Nat × List Predicate) :=
  match sets, vars with
  | set :: sets, var :: vars => do
    let (st1, nv1, ps1) ← sharerChildren exposure set var st
    let (st2, nv2, ps2) ← sharerSets exposure sets vars st1
    some (st2, nv1 ++ nv2, ps1 ++ ps2)
  | _, _ => some (st, [], [])

/-- Lines 266-332, inner loop over one place's sharer set.  A Sharing child
is translated with the place variable pre-bound to its place 0.  An
Equivalence child is translated in an empty variable context; under
`Transparent` exposure its fresh variables join the current scope and the
`Equivalent` wrapper is bare, otherwise they are collected locally and the
wrapped predicate is `Lambda`-abstracted over them when non-empty. -/
def sharerChildren (exposure : Exposure)
    (children : List (PredicateChaining × PredicateTree)) (var : Nat)
    (st : TState) : Option (TState × List Nat × List Predicate) :=
  match children with
  | [] => some (st, [], [])
  | (chaining, tree) :: rest =>
    match chaining with
    | .Sharing => do
      let (st1, nv1, ps1) ← toExpr_ tree .Sharing [var] st
      let (st2, nv2, ps2) ← sharerChildren exposure rest var st1
      some (st2, nv1 ++ nv2, ps1 ++ ps2)
    | .Equivalence =>
      if exposure = .Transparent then do
        let (st1, nvC, equivPreds) ← toExpr_ tree .Equivalence [] st
        let p := collapseAnd equivPreds
        let (st2, nv2, ps2) ← sharerChildren exposure rest var st1
        some (st2, nvC ++ nv2, Predicate.Equivalent var p :: ps2)
      else do
        let (st1, nvC, equivPreds) ← toExpr_ tree .Equivalence [] st
        let p := collapseAnd equivPreds
        let wrapped := if nvC.isEmpty then p else Predicate.Lambda nvC p
        let (st2, nv2, ps2) ← sharerChildren exposure rest var st1
        some (st2, nv2, Predicate.Equivalent var wrapped :: ps2)

/-- Lines 335-367: each `and` sibling is translated in its own empty scope
and its result wrapped in `Exists` over its own free variables when it left
any, pushed bare otherwise. -/
def andTrees (ts : List PredicateTree) (st : TState) :
    Option (TState × List Predicate) :=
  match ts with
  | [] => some (st, [])
  | t :: rest => do
    let (st1, nv, ps) ← toExpr_ t .Equivalence [] st
    let conj := if nv.isEmpty then collapseAnd ps
      else Predicate.Exists nv (collapseAnd ps)
    let (st2, rest') ← andTrees rest st1
    some (st2, conj :: rest')

end

/-- `to_expr` (src/expr.rs lines 121-145). -/
def toExpr (tree : PredicateTree) : Option (Predicate × List Nat) := do
  let (_, new_vars, preds) ← toExpr_ tree .Equivalence [] ⟨0, 0, []⟩
  some (collapseAnd preds, new_vars)

/-- Free (unbound) variables of a `Predicate`, in occurrence order:
`Exists`/`Lambda` bind their variable lists, an `Equivalent` node uses its
`var` freely.  This is the binding notion of the spec's closure-soundness
invariant. -/
def Predicate.freeVars : Predicate → List Nat
  | .Leaf _ _ apply_to => apply_to
  | .Not p => p.freeVars
  | .And ps => ps.attach.flatMap fun ⟨p, _⟩ => p.freeVars
  | .Exists vs p => p.freeVars.filter fun v => !(vs.contains v)
  | .Equivalent v p => v :: p.freeVars
  | .Lambda vs p => p.freeVars.filter fun v => !(vs.contains v)

/-- All identity-ids stored in the symbol table are below the `max_id`
counter — an invariant of every state the translator reaches, used to show
that a freshly pushed shadow id differs from every id already visible. -/
def tableIdsBound (st : TState) : Prop :=
  ∀ w stk, stLookup st.symbolTable w = some stk → ∀ id ∈ stk, id < st.maxId

/-! ### Spec-side definitions for the lexer claims -/

/-- Modelled from the spec: the claim's chaining table, a function of the
root's final phoneme alone — final vowel `i` gives Equivalence at place 1,
any other final vowel gives Sharing at place 1, a final consonant gives
Sharing at place 0. -/
def specFinalPhonemeChaining (last : Char) : ChainingBehavior :=
  if last = 'i' then ⟨1, .Equivalence⟩
  else if VOWELS.contains last then ⟨1, .Sharing⟩
  else ⟨0, .Sharing⟩

/-- Whether a spelling begins with a legal initial consonant pair — the
discriminator between the two root productions. -/
def startsWithInitialPair : List Char → Bool
  | a :: b :: _ => INITIAL_PAIRS.contains (a, b)
  | _ => false

/-! ### Concrete scenario trees -/

/-- A negated `Binding` whose root is a non-negated `Binding` with one
argument place and no sharers: translating the inner node under an
`Equivalence` caller allocates one fresh variable into the enclosing scope
buffer, which the negated outer node then discards. -/
def cexDanglingTree : PredicateTree :=
  .Binding ⟨0, .Sharing⟩
    (.Binding ⟨0, .Sharing⟩ (.Leaf ⟨"ba", ⟨0, .Sharing⟩⟩) false .Standard [[]] [])
    true .Standard [] []

/-- An `Explicit`-exposure node naming the spelling "ba", which has no
identity-id before the node is entered. -/
def cexPanicShadow : PredicateTree :=
  .Binding ⟨0, .Sharing⟩ (.Leaf ⟨"ka", ⟨0, .Sharing⟩⟩) false
    (.Explicit [("ba", .Sharing)]) [] []

/-- After `cexPanicShadow` exits (leaving "ba" mapped to an emptied id
stack), a sibling `Leaf` with spelling "ba" is translated. -/
def cexPanicTree : PredicateTree :=
  .Binding ⟨0, .Sharing⟩ cexPanicShadow false .Standard []
    [.Leaf ⟨"ba", ⟨0, .Sharing⟩⟩]

/-- An `Explicit`-exposure node that names spelling `w` and contains a
`Leaf` with that same spelling. -/
def c3shadow (w : String) : PredicateTree :=
  .Binding ⟨0, .Sharing⟩ (.Leaf ⟨w, ⟨0, .Sharing⟩⟩) false
    (.Explicit [(w, .Sharing)]) [] []

/-- Anaphora scenario: the root leaf spells `w`; place 0 holds another
`Leaf w` (no shadow in between), place 1 holds the `Explicit` shadow node
containing an inner `Leaf w`, and place 2 holds a final `Leaf w` translated
after the shadow has exited. -/
def c3tree (w : String) : PredicateTree :=
  .Binding ⟨0, .Sharing⟩ (.Leaf ⟨w, ⟨0, .Sharing⟩⟩) false .Standard
    [[(.Sharing, .Leaf ⟨w, ⟨0, .Sharing⟩⟩)],
     [(.Sharing, c3shadow w)],
     [(.Sharing, .Leaf ⟨w, ⟨0, .Sharing⟩⟩)]] []

/-- A `Binding` with one `and` sibling that is a bare leaf (and hence leaves
no free variables). -/
def cexBareSibling : PredicateTree :=
  .Binding ⟨0, .Sharing⟩ (.Leaf ⟨"ka", ⟨0, .Sharing⟩⟩) false .Standard []
    [.Leaf ⟨"ba", ⟨0, .Sharing⟩⟩]

/-! ### Theorems -/

/-- Helper: `allocSharingVars` never decreases the variable counter. -/
theorem allocSharingVars_mono (cv cp : Nat) :
    ∀ (idx : List Nat) (mv : Nat) (vs co : List Nat) (mv' : Nat),
      allocSharingVars cv cp mv idx = (vs, co, mv') → mv ≤ mv'
  | [], mv, vs, co, mv', h => by
    simp only [allocSharingVars, Prod.mk.injEq] at h
    obtain ⟨-, -, h⟩ := h
    omega
  | i :: rest, mv, vs, co, mv', h => by
    simp only [allocSharingVars] at h
    split at h
    · rcases ha : allocSharingVars cv cp mv rest with ⟨a, b, c⟩
      rw [ha] at h
      simp only [Prod.mk.injEq] at h
      obtain ⟨-, -, h⟩ := h
      have := allocSharingVars_mono cv cp rest mv a b c ha
      omega
    · rcases ha : allocSharingVars cv cp (mv + 1) rest with ⟨a, b, c⟩
      rw [ha] at h
      simp only [Prod.mk.injEq] at h
      obtain ⟨-, -, h⟩ := h
      have := allocSharingVars_mono cv cp rest (mv + 1) a b c ha
      omega

theorem explicitIntro_fresh :
    ∀ (args : List (String × PredicateChaining)) (st : TState) (i : Nat)
      (vars vars' co nv : List Nat) (ps : List Predicate) (st' : TState),
      explicitIntro st i vars args = (vars', co, nv, ps, st') →
      st.maxVar ≤ st'.maxVar ∧ ∀ v ∈ nv, st.maxVar ≤ v ∧ v < st'.maxVar
  | [], st, i, vars, vars', co, nv, ps, st', h => by
    simp only [explicitIntro, Prod.mk.injEq] at h
    obtain ⟨-, -, h3, -, h5⟩ := h
    subst h3 h5
    simp
  | (word, cw) :: rest, st, i, vars, vars', co, nv, ps, st', h => by
    simp only [explicitIntro] at h
    rcases hv : vars[i]? with _ | old <;> simp only [hv] at h
    case none =>
      rcases hrec : explicitIntro
          ⟨st.maxVar + 1, st.maxId + 1, stPush st.symbolTable word st.maxId⟩
          (i + 1) vars rest with ⟨a, b, c, d, e⟩
      rw [hrec] at h
      have hr := explicitIntro_fresh rest _ (i + 1) _ a b c d e hrec
      simp only [Prod.mk.injEq] at h
      obtain ⟨-, -, h3, -, h5⟩ := h
      subst h3 h5
      obtain ⟨hr1, hr2⟩ := hr
      try simp only at hr1
      try simp only at hr2
      refine ⟨by omega, ?_⟩
      intro v hvmem
      simp at hvmem
      rcases hvmem with rfl | hvm
      · omega
      · have := hr2 v hvm
        omega
    case some =>
      rcases hrec : explicitIntro
          ⟨st.maxVar + 1, st.maxId + 1, stPush st.symbolTable word st.maxId⟩
          (i + 1) (vars.set i st.maxVar) rest with ⟨a, b, c, d, e⟩
      rw [hrec] at h
      have hr := explicitIntro_fresh rest _ (i + 1) _ a b c d e hrec
      simp only [Prod.mk.injEq] at h
      obtain ⟨-, -, h3, -, h5⟩ := h
      subst h3 h5
      obtain ⟨hr1, hr2⟩ := hr
      try simp only at hr1
      try simp only at hr2
      refine ⟨by omega, ?_⟩
      intro v hvm
      have := hr2 v hvm
      omega

set_option maxHeartbeats 2000000 in
/-- Helper: variable freshness for `to_expr_`: on success the `max_var`
counter never decreases, and every variable appended to the caller's
`new_vars` is allocated in the interval between the entry and exit values
of the counter. -/
theorem toExpr_fresh (t : PredicateTree) (cw : PredicateChaining)
    (vars : List Nat) (st : TState) :
    ∀ st' nv ps, toExpr_ t cw vars st = some (st', nv, ps) →
      st.maxVar ≤ st'.maxVar ∧ ∀ v ∈ nv, st.maxVar ≤ v ∧ v < st'.maxVar := by
  refine toExpr_.induct
    (fun t cw vars st => ∀ st' nv ps, toExpr_ t cw vars st = some (st', nv, ps) →
      st.maxVar ≤ st'.maxVar ∧ ∀ v ∈ nv, st.maxVar ≤ v ∧ v < st'.maxVar)
    (fun ts st => ∀ st' ps, andTrees ts st = some (st', ps) →
      st.maxVar ≤ st'.maxVar)
    (fun e sets vars st => ∀ st' nv ps, sharerSets e sets vars st = some (st', nv, ps) →
      st.maxVar ≤ st'.maxVar ∧ ∀ v ∈ nv, st.maxVar ≤ v ∧ v < st'.maxVar)
    (fun e ch var st => ∀ st' nv ps, sharerChildren e ch var st = some (st', nv, ps) →
      st.maxVar ≤ st'.maxVar ∧ ∀ v ∈ nv, st.maxVar ≤ v ∧ v < st'.maxVar)
    ?_ ?_ ?_ ?_ ?_ ?_ ?_ ?_ ?_ ?_ ?_ ?_ t cw vars st
  -- Leaf, stack found, head some
  case _ =>
    intro cw vars st a stack hlook id hhead st' nv ps h
    simp only [toExpr_, hlook, hhead] at h
    obtain ⟨rfl, rfl, rfl⟩ := h
    simp
  -- Leaf, stack found, head none (panic)
  case _ =>
    intro cw vars st a stack hlook hhead st' nv ps h
    simp only [toExpr_, hlook, hhead] at h
    exact Option.noConfusion h
  -- Leaf, vacant
  case _ =>
    intro cw vars st a hlook st' nv ps h
    simp only [toExpr_, hlook] at h
    obtain ⟨rfl, rfl, rfl⟩ := h
    simp
  -- Binding
  case _ =>
    intro cw vars st ch root neg expo sharers ands chain_place
      vars1 closeOver0 nvd0 st0 heq1 vars2 co2 nvd1 expPs st1 heq2
      ih_root ih_sh ih_and stF nvF psF h
    simp only [toExpr_] at h
    rw [heq1] at h
    rw [heq2] at h
    try simp only at h
    clear_value chain_place
    have f1 : st.maxVar ≤ st0.maxVar ∧ ∀ v ∈ nvd0, st.maxVar ≤ v ∧ v < st0.maxVar := by
      clear h
      cases cw
      case Sharing =>
        rcases hv : vars.head? with _ | cv <;> rw [hv] at heq1 <;>
          dsimp only at heq1
        · rcases ha : allocSharingVars st.maxVar chain_place (st.maxVar + 1)
            (List.range sharers.length) with ⟨vs, co, mv⟩
          rw [ha] at heq1
          simp only [Prod.mk.injEq] at heq1
          obtain ⟨-, -, h3, h4⟩ := heq1
          have hm := allocSharingVars_mono st.maxVar chain_place _ _ _ _ _ ha
          subst h3 h4
          refine ⟨?_, by simp⟩
          show st.maxVar ≤ mv
          omega
        · rcases ha : allocSharingVars cv chain_place st.maxVar
            (List.range sharers.length) with ⟨vs, co, mv⟩
          rw [ha] at heq1
          simp only [Prod.mk.injEq] at heq1
          obtain ⟨-, -, h3, h4⟩ := heq1
          have hm := allocSharingVars_mono cv chain_place _ _ _ _ _ ha
          subst h3 h4
          refine ⟨?_, by simp⟩
          show st.maxVar ≤ mv
          omega
      case Equivalence =>
        dsimp only at heq1
        simp only [Prod.mk.injEq] at heq1
        obtain ⟨-, -, h3, h4⟩ := heq1
        subst h3 h4
        constructor
        · show st.maxVar ≤ st.maxVar + (List.range' st.maxVar (sharers.length - vars.length)).length
          omega
        · intro v hv
          rw [List.mem_range'_1] at hv
          constructor
          · omega
          · show v < st.maxVar + (List.range' st.maxVar (sharers.length - vars.length)).length
            rw [List.length_range']
            omega
    have f2 : st0.maxVar ≤ st1.maxVar ∧ ∀ v ∈ nvd1, st0.maxVar ≤ v ∧ v < st1.maxVar := by
      clear h
      cases expo
      case Explicit vec =>
        dsimp only at heq2
        rcases hE : explicitIntro st0 0 vars1 vec with ⟨a, b, c, d, e⟩
        rw [hE] at heq2
        simp only [Prod.mk.injEq] at heq2
        obtain ⟨-, -, h3, -, h5⟩ := heq2
        subst h3 h5
        exact explicitIntro_fresh vec st0 0 vars1 a b c d e hE
      all_goals
        dsimp only at heq2
        simp only [Prod.mk.injEq] at heq2
        obtain ⟨-, -, h3, -, h5⟩ := heq2
        subst h3 h5
        exact ⟨le_refl _, by simp⟩
    obtain ⟨f1a, f1b⟩ := f1
    obtain ⟨f2a, f2b⟩ := f2
    rcases hroot : toExpr_ root .Equivalence vars2 st1 with _ | ⟨st2, rootNv, rootPreds⟩ <;>
      rw [hroot] at h
    · exact Option.noConfusion h
    obtain ⟨g1, g2⟩ := ih_root st2 rootNv rootPreds hroot
    simp only [Option.pure_def, Option.bind_eq_bind, Option.some_bind] at h
    rcases hsh : sharerSets expo sharers vars2 st2 with _ | ⟨st3, shNv, shPreds⟩ <;>
      rw [hsh] at h
    · exact Option.noConfusion h
    obtain ⟨s1, s2⟩ := ih_sh st2 st3 shNv shPreds hsh
    simp only [Option.pure_def, Option.bind_eq_bind, Option.some_bind] at h
    rcases hand : andTrees ands st3 with _ | ⟨st4, andPreds⟩ <;> rw [hand] at h
    · exact Option.noConfusion h
    have a1 := ih_and st3 st4 andPreds hand
    simp only [Option.pure_def, Option.bind_eq_bind, Option.some_bind] at h
    have main : stF.maxVar = st4.maxVar ∧
        (nvF = nvd0 ++ nvd1 ∨ nvF = nvd0 ++ nvd1 ++ rootNv ++ shNv) := by
      cases expo
      case Explicit vec =>
        try simp only at h
        rcases hpop : explicitPop st4.symbolTable vec with _ | m <;> rw [hpop] at h
        · exact Option.noConfusion h
        simp only [Option.pure_def, Option.bind_eq_bind, Option.some_bind] at h
        split at h
        all_goals
          simp only [Option.some.injEq, Prod.mk.injEq] at h
          obtain ⟨h1, h2, -⟩ := h
          subst h1
          exact ⟨rfl, by first | exact Or.inl h2.symm | exact Or.inr h2.symm⟩
      all_goals
        simp only [Option.pure_def, Option.bind_eq_bind, Option.some_bind] at h
        split at h
        all_goals
          simp only [Option.some.injEq, Prod.mk.injEq] at h
          obtain ⟨h1, h2, -⟩ := h
          subst h1
          exact ⟨rfl, by first | exact Or.inl h2.symm | exact Or.inr h2.symm⟩
    obtain ⟨m1, m2⟩ := main
    refine ⟨by omega, ?_⟩
    intro v hv
    rcases m2 with rfl | rfl <;> simp only [List.mem_append] at hv
    · rcases hv with hv | hv
      · have := f1b v hv; omega
      · have := f2b v hv; omega
    · rcases hv with ((hv | hv) | hv) | hv
      · have := f1b v hv; omega
      · have := f2b v hv; omega
      · have := g2 v hv; omega
      · have := s2 v hv; omega
  -- sharerSets cons-cons
  case _ =>
    intro e st set sets var vars ih4 ih3 st' nv ps h
    simp only [sharerSets] at h
    rcases hc : sharerChildren e set var st with _ | ⟨st1, nv1, ps1⟩ <;> rw [hc] at h
    · exact Option.noConfusion h
    simp only [Option.pure_def, Option.bind_eq_bind, Option.some_bind] at h
    rcases hs : sharerSets e sets vars st1 with _ | ⟨st2, nv2, ps2⟩ <;> rw [hs] at h
    · exact Option.noConfusion h
    simp only [Option.pure_def, Option.bind_eq_bind, Option.some_bind] at h
    obtain ⟨c1, c2⟩ := ih4 st1 nv1 ps1 hc
    obtain ⟨d1, d2⟩ := ih3 st1 st2 nv2 ps2 hs
    obtain ⟨rfl, rfl, -⟩ := h
    refine ⟨by omega, ?_⟩
    intro v hv
    simp only [List.mem_append] at hv
    rcases hv with hv | hv
    · have := c2 v hv; omega
    · have := d2 v hv; omega
  -- sharerSets fallthrough
  case _ =>
    intro sets e vars st hfall st' nv ps h
    match sets, vars with
    | [], vars =>
      simp only [sharerSets] at h
      obtain ⟨rfl, rfl, -⟩ := h
      simp
    | s :: ss, [] =>
      simp only [sharerSets] at h
      obtain ⟨rfl, rfl, -⟩ := h
      simp
    | s :: ss, v :: vs => exact (hfall s ss v vs rfl rfl).elim
  -- andTrees nil
  case _ =>
    intro st st' ps h
    simp only [andTrees] at h
    obtain ⟨rfl, -⟩ := h
    exact le_refl _
  -- andTrees cons
  case _ =>
    intro st t rest ih1 ih2 st' ps h
    simp only [andTrees] at h
    rcases h1 : toExpr_ t .Equivalence [] st with _ | ⟨st1, nv1, ps1⟩ <;> rw [h1] at h
    · exact Option.noConfusion h
    simp only [Option.pure_def, Option.bind_eq_bind, Option.some_bind] at h
    rcases h2 : andTrees rest st1 with _ | ⟨st2, ps2⟩ <;> rw [h2] at h
    · exact Option.noConfusion h
    simp only [Option.pure_def, Option.bind_eq_bind, Option.some_bind] at h
    have i1 := (ih1 st1 nv1 ps1 h1).1
    have i2 := ih2 st1 st2 ps2 h2
    obtain ⟨rfl, -⟩ := h
    omega
  -- sharerChildren nil
  case _ =>
    intro e var st st' nv ps h
    simp only [sharerChildren] at h
    obtain ⟨rfl, rfl, -⟩ := h
    simp
  -- sharerChildren Sharing cons
  case _ =>
    intro e var st tree rest ih1 ih4 st' nv ps h
    simp only [sharerChildren] at h
    rcases h1 : toExpr_ tree .Sharing [var] st with _ | ⟨st1, nv1, ps1⟩ <;> rw [h1] at h
    · exact Option.noConfusion h
    simp only [Option.pure_def, Option.bind_eq_bind, Option.some_bind] at h
    rcases h2 : sharerChildren e rest var st1 with _ | ⟨st2, nv2, ps2⟩ <;> rw [h2] at h
    · exact Option.noConfusion h
    simp only [Option.pure_def, Option.bind_eq_bind, Option.some_bind] at h
    obtain ⟨c1, c2⟩ := ih1 st1 nv1 ps1 h1
    obtain ⟨d1, d2⟩ := ih4 st1 st2 nv2 ps2 h2
    obtain ⟨rfl, rfl, -⟩ := h
    refine ⟨by omega, ?_⟩
    intro v hv
    simp only [List.mem_append] at hv
    rcases hv with hv | hv
    · have := c2 v hv; omega
    · have := d2 v hv; omega
  -- sharerChildren Equivalence, Transparent
  case _ =>
    intro var st tree rest ih1 ih4 st' nv ps h
    simp only [sharerChildren, if_pos rfl] at h
    rcases h1 : toExpr_ tree .Equivalence [] st with _ | ⟨st1, nv1, ps1⟩ <;> rw [h1] at h
    · exact Option.noConfusion h
    simp only [Option.pure_def, Option.bind_eq_bind, Option.some_bind] at h
    rcases h2 : sharerChildren .Transparent rest var st1 with _ | ⟨st2, nv2, ps2⟩ <;>
      rw [h2] at h
    · exact Option.noConfusion h
    simp only [Option.pure_def, Option.bind_eq_bind, Option.some_bind] at h
    obtain ⟨c1, c2⟩ := ih1 st1 nv1 ps1 h1
    obtain ⟨d1, d2⟩ := ih4 st1 st2 nv2 ps2 h2
    obtain ⟨rfl, rfl, -⟩ := h
    refine ⟨by omega, ?_⟩
    intro v hv
    simp only [List.mem_append] at hv
    rcases hv with hv | hv
    · have := c2 v hv; omega
    · have := d2 v hv; omega
  -- sharerChildren Equivalence, not Transparent
  case _ =>
    intro e var st tree rest hne ih1 ih4 st' nv ps h
    simp only [sharerChildren, if_neg hne] at h
    rcases h1 : toExpr_ tree .Equivalence [] st with _ | ⟨st1, nv1, ps1⟩ <;> rw [h1] at h
    · exact Option.noConfusion h
    simp only [Option.pure_def, Option.bind_eq_bind, Option.some_bind] at h
    rcases h2 : sharerChildren e rest var st1 with _ | ⟨st2, nv2, ps2⟩ <;> rw [h2] at h
    · exact Option.noConfusion h
    simp only [Option.pure_def, Option.bind_eq_bind, Option.some_bind] at h
    obtain ⟨c1, c2⟩ := ih1 st1 nv1 ps1 h1
    obtain ⟨d1, d2⟩ := ih4 st1 st2 nv2 ps2 h2
    obtain ⟨rfl, rfl, -⟩ := h
    refine ⟨by omega, ?_⟩
    intro v hv
    have := d2 v hv
    omega


/-- C5. Negation parity: the tree built by the `binding` production from
`biCount` long-negation and `ziCount` short-negation markers is identical to
the tree built from the counts reduced mod 2 (so an even number of
applications of a marker is a no-op and an odd number is one application);
and composing two `Negation` values XORs their `short` and `long` flags
independently, with `Negation::None` as the identity. -/
theorem negation_parity :
    (∀ (l : Syn.PredicateTree) (biCount ziCount : Nat),
      l.negate (Syn.bindingNegation biCount ziCount) =
        l.negate (Syn.bindingNegation (biCount % 2) (ziCount % 2)))
    ∧ (∀ a b : Negation,
        (a.bxor b).short = xor a.short b.short
        ∧ (a.bxor b).long = xor a.long b.long)
    ∧ (∀ a : Negation, a.bxor .None = a ∧ Negation.None.bxor a = a) := by
  refine ⟨fun l bi zi => ?_, by decide, by decide⟩
  have hb : bi % 2 % 2 = bi % 2 := Nat.mod_mod_of_dvd bi (dvd_refl 2)
  have hz : zi % 2 % 2 = zi % 2 := Nat.mod_mod_of_dvd zi (dvd_refl 2)
  unfold Syn.bindingNegation
  rw [hb, hz]

/-- C10 (counterexample). The claim "`t.negate(n).negate(n) = t` for every
`PredicateTree t`" fails on the representable tree
`Negation { negation: None, pred: Leaf }`: negating it twice with `Short`
yields the bare `Leaf`, not the original tree. -/
theorem negate_involution_counterexample :
    ((Syn.PredicateTree.Negation .None
          (.Leaf ⟨"ba", ⟨1, .Sharing⟩⟩)).negate .Short).negate .Short
      ≠ Syn.PredicateTree.Negation .None (.Leaf ⟨"ba", ⟨1, .Sharing⟩⟩) := by
  intro h
  simp [Syn.PredicateTree.negate, Negation.bxor, Negation.short, Negation.long,
    Negation.new] at h

/-- C10 (amended). For every tree whose top-level node, if it is a `Negation`
node, carries a non-`None` negation and wraps a `Leaf` — the only `Negation`
nodes `negate` itself ever constructs — `negate` with the same `Negation`
value is a self-inverse update, and `negate(Negation::None)` is the
identity on all trees. -/
theorem negate_involution (t : Syn.PredicateTree) (n : Negation)
    (h : t.negTopWellFormed) :
    (t.negate n).negate n = t ∧ t.negate .None = t := by
  constructor
  · match t with
    | .Leaf w =>
      cases n <;>
        simp [Syn.PredicateTree.negate, Negation.bxor, Negation.short,
          Negation.long, Negation.new]
    | .Negation m p =>
      match p with
      | .Leaf w =>
        have hm : m ≠ .None := h
        cases m <;> cases n <;>
          simp_all [Syn.PredicateTree.negate, Negation.bxor, Negation.short,
            Negation.long, Negation.new]
      | .Negation _ _ => exact absurd h (by simp [Syn.PredicateTree.negTopWellFormed])
      | .Binding _ _ _ _ _ _ => exact absurd h (by simp [Syn.PredicateTree.negTopWellFormed])
    | .Binding c r m e s a =>
      cases m <;> cases n <;>
        simp [Syn.PredicateTree.negate, Negation.bxor, Negation.short,
          Negation.long, Negation.new]
  · simp [Syn.PredicateTree.negate]

/-- C1 (code bug). Closure soundness fails: on `cexDanglingTree` the
translator returns the formula `¬ ba0(v0)` together with an empty top-level
free-variable list, yet `v0` (variable `0`) occurs free in the formula and
is bound by no enclosing `Exists` or `Lambda` — a dangling variable
reference.  (The fresh variable the inner node appends to the enclosing
scope buffer is dropped when the negated outer node discards its
`new_new_vars` on the `negated && !closure_needed` path, src/expr.rs lines
245-252 and 375-396.) -/
theorem closure_soundness_code_bug :
    toExpr cexDanglingTree = some (.Not (.Leaf "ba" 0 [0]), [])
    ∧ (Predicate.Not (.Leaf "ba" 0 [0])).freeVars = [0]
    ∧ (0 : Nat) ∉ ([] : List Nat) := by
  refine ⟨rfl, by simp [Predicate.freeVars], by simp⟩

/-- C9 (code bug). `to_expr` panics rather than returning: on
`cexPanicTree` the `Explicit` node pushes a fresh id for spelling "ba"
(creating its entry) and pops it on exit, leaving the entry present but
empty; the later `Leaf "ba"` finds the occupied entry, so
`or_insert_with` allocates nothing, and `.last().unwrap()` on the empty id
stack panics (src/expr.rs lines 158-170 and 369-373).  In the embedding the
panic is the `none` result. -/
theorem explicit_pop_panic_code_bug : toExpr cexPanicTree = none := rfl

/-- Looking a key up right after `stSet` sets it returns the new value
(embedding of `BTreeMap::insert` followed by `get` on the same key). -/
theorem stLookup_stSet_self (m : List (String × List Nat)) (w : String)
    (v : List Nat) : stLookup (stSet m w v) w = some v := by
  induction m with
  | nil => simp [stSet, stLookup]
  | cons kv rest ih =>
    obtain ⟨k, v0⟩ := kv
    by_cases hk : k = w
    · simp [stSet, stLookup, hk]
    · simp [stSet, stLookup, hk, ih]

theorem stLookup_stSet_ne (m : List (String × List Nat)) (w w' : String)
    (v : List Nat) (h : w' ≠ w) :
    stLookup (stSet m w v) w' = stLookup m w' := by
  have h' : ¬ w = w' := fun hc => h hc.symm
  induction m with
  | nil => simp [stSet, stLookup, h']
  | cons kv rest ih =>
    obtain ⟨k, v0⟩ := kv
    by_cases hk : k = w
    · subst hk
      simp [stSet, stLookup, h']
    · simp [stSet, stLookup, hk, ih]

theorem stPush_self (m : List (String × List Nat)) (w : String) (id : Nat) :
    stLookup (stPush m w id) w = some (id :: (stLookup m w).getD []) := by
  unfold stPush
  rcases hl : stLookup m w with _ | s
  · simp [stLookup_stSet_self]
  · simp [stLookup_stSet_self]

theorem stPush_ne (m : List (String × List Nat)) (w w' : String) (id : Nat)
    (h : w' ≠ w) : stLookup (stPush m w id) w' = stLookup m w' := by
  unfold stPush
  rcases stLookup m w with _ | s <;> exact stLookup_stSet_ne m w w' _ h

/-- `explicitIntro` (the `Exposure::Explicit` entry loop, src/expr.rs
lines 282-331) pushes, for each argument naming spelling `w`, one fresh id
onto `w`'s id stack, and leaves every other spelling's entry unchanged. -/
theorem explicitIntro_lookup :
    ∀ (args : List (String × PredicateChaining)) (st : TState) (i : Nat)
      (vars vars' co nvd : List Nat) (eps : List Predicate) (st' : TState),
      explicitIntro st i vars args = (vars', co, nvd, eps, st') →
      ∀ w : String, ∃ pushed : List Nat,
        pushed.length = (args.map Prod.fst).count w ∧
        stLookup st'.symbolTable w =
          (if (args.map Prod.fst).count w = 0 then stLookup st.symbolTable w
           else some (pushed ++ (stLookup st.symbolTable w).getD []))
  | [], st, i, vars, vars', co, nvd, eps, st', h, w => by
    simp only [explicitIntro, Prod.mk.injEq] at h
    obtain ⟨-, -, -, -, h5⟩ := h
    subst h5
    exact ⟨[], by simp, by simp⟩
  | (u, cu) :: rest, st, i, vars, vars', co, nvd, eps, st', h, w => by
    simp only [explicitIntro] at h
    rcases hv : vars[i]? with _ | old <;> simp only [hv] at h <;>
    · rcases hrec : explicitIntro
          ⟨st.maxVar + 1, st.maxId + 1, stPush st.symbolTable u st.maxId⟩
          (i + 1) _ rest with ⟨a, b, c, d, e⟩
      rw [hrec] at h
      simp only [Prod.mk.injEq] at h
      obtain ⟨-, -, -, -, h5⟩ := h
      subst h5
      obtain ⟨pushed, hlen, hlook⟩ := explicitIntro_lookup rest _ (i + 1) _ a b c d e hrec w
      by_cases hw : u = w
      · subst hw
        have hp : stLookup (stPush st.symbolTable u st.maxId) u =
            some (st.maxId :: (stLookup st.symbolTable u).getD []) :=
          stPush_self st.symbolTable u st.maxId
        simp only [List.map_cons, List.count_cons, beq_self_eq_true, if_true] at hlook ⊢
        by_cases hc : (rest.map Prod.fst).count u = 0
        · rw [hc] at hlook
          refine ⟨[st.maxId], by simp [hc], ?_⟩
          simp only [hc, if_true] at hlook
          rw [hlook, hp]
          simp
        · rw [if_neg hc] at hlook
          refine ⟨pushed ++ [st.maxId], by simp [hlen], ?_⟩
          rw [hlook, hp]
          simp
      · have hp : stLookup (stPush st.symbolTable u st.maxId) w =
            stLookup st.symbolTable w :=
          stPush_ne st.symbolTable u w st.maxId (fun hc => hw hc.symm)
        rw [hp] at hlook
        refine ⟨pushed, ?_, ?_⟩
        · rw [hlen]
          simp [List.count_cons, hw]
        · rw [hlook]
          simp [List.count_cons, hw]

/-- `explicitIntro` never decreases `max_id`, and keeps every id stored
in the symbol table strictly below `max_id`; `explicitPop` (the exit loop,
src/expr.rs lines 369-373) drops exactly the pushed ids from each stack. -/
theorem explicitIntro_bound :
    ∀ (args : List (String × PredicateChaining)) (st : TState) (i : Nat)
      (vars vars' co nvd : List Nat) (eps : List Predicate) (st' : TState),
      explicitIntro st i vars args = (vars', co, nvd, eps, st') →
      st.maxId ≤ st'.maxId ∧ (tableIdsBound st → tableIdsBound st')
  | [], st, i, vars, vars', co, nvd, eps, st', h => by
    simp only [explicitIntro, Prod.mk.injEq] at h
    obtain ⟨-, -, -, -, h5⟩ := h
    subst h5
    exact ⟨le_refl _, fun hb => hb⟩
  | (u, cu) :: rest, st, i, vars, vars', co, nvd, eps, st', h => by
    simp only [explicitIntro] at h
    rcases hv : vars[i]? with _ | old <;> simp only [hv] at h <;>
    · rcases hrec : explicitIntro
          ⟨st.maxVar + 1, st.maxId + 1, stPush st.symbolTable u st.maxId⟩
          (i + 1) _ rest with ⟨a, b, c, d, e⟩
      rw [hrec] at h
      simp only [Prod.mk.injEq] at h
      obtain ⟨-, -, -, -, h5⟩ := h
      subst h5
      obtain ⟨hm, hb⟩ := explicitIntro_bound rest _ (i + 1) _ a b c d e hrec
      simp only at hm
      refine ⟨by omega, fun hbound => ?_⟩
      refine hb ?_
      intro w stk hl id hid
      simp only at hl ⊢
      by_cases hw : u = w
      · subst hw
        rw [stPush_self] at hl
        obtain ⟨rfl⟩ := Option.some.inj hl
        rcases List.mem_cons.mp hid with rfl | hid'
        · omega
        · rcases ho : stLookup st.symbolTable u with _ | s
          · rw [ho] at hid'
            simp at hid'
          · rw [ho] at hid'
            have := hbound u s ho id (by simpa using hid')
            omega
      · rw [stPush_ne st.symbolTable u w st.maxId (fun hc => hw hc.symm)] at hl
        have := hbound w stk hl id hid
        omega

theorem explicitPop_lookup :
    ∀ (args : List (String × PredicateChaining))
      (m m' : List (String × List Nat)),
      explicitPop m args = some m' →
      ∀ w : String, stLookup m' w =
        (stLookup m w).map (fun s => s.drop ((args.map Prod.fst).count w))
  | [], m, m', h, w => by
    simp only [explicitPop] at h
    obtain ⟨rfl⟩ := h
    rcases stLookup m w with _ | s <;> simp
  | (u, cu) :: rest, m, m', h, w => by
    simp only [explicitPop] at h
    rcases hu : stLookup m u with _ | s <;> rw [hu] at h
    · exact Option.noConfusion h
    · have ih := explicitPop_lookup rest (stSet m u s.tail) m' h w
      by_cases hw : u = w
      · subst hw
        rw [stLookup_stSet_self] at ih
        rw [ih, hu]
        simp only [Option.map_some', List.map_cons, List.count_cons,
          beq_self_eq_true, if_true, Option.some.injEq]
        rw [List.drop_tail]
      · rw [stLookup_stSet_ne m u w s.tail (fun hc => hw hc.symm)] at ih
        rw [ih]
        have : ((u :: rest.map Prod.fst).count w) = (rest.map Prod.fst).count w := by
          simp [List.count_cons, hw]
        simp [this]

set_option maxHeartbeats 2000000 in
/-- Symbol-table discipline of the translator: every successful
`to_expr` step is monotone in `max_id`, restores every spelling's visible
id stack exactly (shadows pushed by an `Explicit` node are popped on
exit, src/expr.rs lines 369-373), and preserves the invariant that all
stored ids are below `max_id`. -/
theorem toExpr_table (t : PredicateTree) (cw : PredicateChaining)
    (vars : List Nat) (st : TState) :
    ∀ st' nv ps, toExpr_ t cw vars st = some (st', nv, ps) →
      st.maxId ≤ st'.maxId
      ∧ (∀ w stk, stLookup st.symbolTable w = some stk →
          stLookup st'.symbolTable w = some stk)
      ∧ (tableIdsBound st → tableIdsBound st') := by
  refine toExpr_.induct
    (fun t cw vars st => ∀ st' nv ps, toExpr_ t cw vars st = some (st', nv, ps) →
      st.maxId ≤ st'.maxId
      ∧ (∀ w stk, stLookup st.symbolTable w = some stk →
          stLookup st'.symbolTable w = some stk)
      ∧ (tableIdsBound st → tableIdsBound st'))
    (fun ts st => ∀ st' ps, andTrees ts st = some (st', ps) →
      st.maxId ≤ st'.maxId
      ∧ (∀ w stk, stLookup st.symbolTable w = some stk →
          stLookup st'.symbolTable w = some stk)
      ∧ (tableIdsBound st → tableIdsBound st'))
    (fun e sets vars st => ∀ st' nv ps, sharerSets e sets vars st = some (st', nv, ps) →
      st.maxId ≤ st'.maxId
      ∧ (∀ w stk, stLookup st.symbolTable w = some stk →
          stLookup st'.symbolTable w = some stk)
      ∧ (tableIdsBound st → tableIdsBound st'))
    (fun e ch var st => ∀ st' nv ps, sharerChildren e ch var st = some (st', nv, ps) →
      st.maxId ≤ st'.maxId
      ∧ (∀ w stk, stLookup st.symbolTable w = some stk →
          stLookup st'.symbolTable w = some stk)
      ∧ (tableIdsBound st → tableIdsBound st'))
    ?_ ?_ ?_ ?_ ?_ ?_ ?_ ?_ ?_ ?_ ?_ ?_ t cw vars st
  -- Leaf, stack found, head some
  case _ =>
    intro cw vars st a stack hlook id hhead st' nv ps h
    simp only [toExpr_, hlook, hhead] at h
    obtain ⟨rfl, -, -⟩ := h
    exact ⟨le_refl _, fun w stk hw => hw, fun hb => hb⟩
  -- Leaf, stack found, head none (panic)
  case _ =>
    intro cw vars st a stack hlook hhead st' nv ps h
    simp only [toExpr_, hlook, hhead] at h
    exact Option.noConfusion h
  -- Leaf, vacant
  case _ =>
    intro cw vars st a hlook st' nv ps h
    simp only [toExpr_, hlook] at h
    obtain ⟨rfl, -, -⟩ := h
    refine ⟨by simp, fun w stk hw => ?_, fun hb => ?_⟩
    · have hne : w ≠ a.word := by
        intro hc
        rw [hc, hlook] at hw
        exact Option.noConfusion hw
      simp only
      rw [stLookup_stSet_ne st.symbolTable a.word w _ hne]
      exact hw
    · intro w stk hw id hid
      simp only at hw ⊢
      by_cases hww : w = a.word
      · subst hww
        rw [stLookup_stSet_self] at hw
        obtain ⟨rfl⟩ := Option.some.inj hw
        simp only [List.mem_singleton] at hid
        omega
      · rw [stLookup_stSet_ne st.symbolTable a.word w _ hww] at hw
        have := hb w stk hw id hid
        omega
  -- Binding
  case _ =>
    intro cw vars st ch root neg expo sharers ands chain_place
      vars1 closeOver0 nvd0 st0 heq1 vars2 co2 nvd1 expPs st1 heq2
      ih_root ih_sh ih_and stF nvF psF h
    simp only [toExpr_] at h
    rw [heq1] at h
    rw [heq2] at h
    try simp only at h
    clear_value chain_place
    have f1 : st0.symbolTable = st.symbolTable ∧ st0.maxId = st.maxId := by
      clear h heq2
      cases cw
      case Sharing =>
        rcases hv : vars.head? with _ | cv <;> rw [hv] at heq1 <;>
          dsimp only at heq1
        · rcases ha : allocSharingVars st.maxVar chain_place (st.maxVar + 1)
            (List.range sharers.length) with ⟨vs, co, mv⟩
          rw [ha] at heq1
          simp only [Prod.mk.injEq] at heq1
          obtain ⟨-, -, -, h4⟩ := heq1
          subst h4
          exact ⟨rfl, rfl⟩
        · rcases ha : allocSharingVars cv chain_place st.maxVar
            (List.range sharers.length) with ⟨vs, co, mv⟩
          rw [ha] at heq1
          simp only [Prod.mk.injEq] at heq1
          obtain ⟨-, -, -, h4⟩ := heq1
          subst h4
          exact ⟨rfl, rfl⟩
      case Equivalence =>
        dsimp only at heq1
        simp only [Prod.mk.injEq] at heq1
        obtain ⟨-, -, -, h4⟩ := heq1
        subst h4
        exact ⟨rfl, rfl⟩
    obtain ⟨f1s, f1m⟩ := f1
    rcases hroot : toExpr_ root .Equivalence vars2 st1 with _ | ⟨st2, rootNv, rootPreds⟩ <;>
      rw [hroot] at h
    · exact Option.noConfusion h
    obtain ⟨g1, g2, g3⟩ := ih_root st2 rootNv rootPreds hroot
    simp only [Option.pure_def, Option.bind_eq_bind, Option.some_bind] at h
    rcases hsh : sharerSets expo sharers vars2 st2 with _ | ⟨st3, shNv, shPreds⟩ <;>
      rw [hsh] at h
    · exact Option.noConfusion h
    obtain ⟨s1, s2, s3⟩ := ih_sh st2 st3 shNv shPreds hsh
    simp only [Option.pure_def, Option.bind_eq_bind, Option.some_bind] at h
    rcases hand : andTrees ands st3 with _ | ⟨st4, andPreds⟩ <;> rw [hand] at h
    · exact Option.noConfusion h
    obtain ⟨a1, a2, a3⟩ := ih_and st3 st4 andPreds hand
    simp only [Option.pure_def, Option.bind_eq_bind, Option.some_bind] at h
    cases expo
    case Explicit vec =>
      dsimp only at heq2
      rcases hE : explicitIntro st0 0 vars1 vec with ⟨va, vb, vc, vd, ve⟩
      rw [hE] at heq2
      simp only [Prod.mk.injEq] at heq2
      obtain ⟨-, -, -, -, h5⟩ := heq2
      subst h5
      try dsimp only at h
      rcases hpop : explicitPop st4.symbolTable vec with _ | m <;> rw [hpop] at h
      · exact Option.noConfusion h
      simp only [Option.pure_def, Option.bind_eq_bind, Option.some_bind] at h
      have hstF : stF = ⟨st4.maxVar, st4.maxId, m⟩ := by
        split at h <;>
          · simp only [Option.some.injEq, Prod.mk.injEq] at h
            obtain ⟨h1, -, -⟩ := h
            exact h1.symm
      subst hstF
      obtain ⟨em, eb⟩ := explicitIntro_bound vec st0 0 vars1 va vb vc vd ve hE
      refine ⟨by simp only; omega, fun w stk hw => ?_, fun hb => ?_⟩
      · obtain ⟨pushed, hlen, hlook⟩ :=
          explicitIntro_lookup vec st0 0 vars1 va vb vc vd ve hE w
        rw [f1s] at hlook
        have hpopw := explicitPop_lookup vec st4.symbolTable m hpop w
        by_cases hc : (vec.map Prod.fst).count w = 0
        · rw [if_pos hc, hw] at hlook
          have h4 := s2 w stk (g2 w stk hlook)
          have h5 := a2 w stk h4
          rw [h5, hc] at hpopw
          simp only [Option.map_some', List.drop_zero] at hpopw
          simpa using hpopw
        · rw [if_neg hc, hw] at hlook
          simp only [Option.getD_some] at hlook
          have h4 := s2 w (pushed ++ stk) (g2 w (pushed ++ stk) hlook)
          have h5 := a2 w (pushed ++ stk) h4
          rw [h5] at hpopw
          simp only [Option.map_some'] at hpopw
          rw [← hlen, List.drop_left] at hpopw
          simpa using hpopw
      · have hb0 : tableIdsBound st0 := by
          intro w stk hw id hid
          rw [f1s] at hw
          rw [f1m]
          exact hb w stk hw id hid
        have hb4 : tableIdsBound st4 := a3 (s3 (g3 (eb hb0)))
        intro w stk hw id hid
        simp only at hw ⊢
        have hpopw := explicitPop_lookup vec st4.symbolTable m hpop w
        rw [hw] at hpopw
        rcases h4 : stLookup st4.symbolTable w with _ | s
        · rw [h4] at hpopw
          exact Option.noConfusion hpopw
        · rw [h4] at hpopw
          simp only [Option.map_some', Option.some.injEq] at hpopw
          have hsub : id ∈ s := List.mem_of_mem_drop (hpopw ▸ hid)
          exact hb4 w s h4 id hsub
    all_goals
      dsimp only at heq2
      simp only [Prod.mk.injEq] at heq2
      obtain ⟨-, -, -, -, h5⟩ := heq2
      subst h5
      simp only [Option.pure_def, Option.bind_eq_bind, Option.some_bind] at h
      have hstF : stF = st4 := by
        split at h <;>
          · simp only [Option.some.injEq, Prod.mk.injEq] at h
            obtain ⟨h1, -, -⟩ := h
            exact h1.symm
      subst hstF
      refine ⟨by omega, fun w stk hw => ?_, fun hb => ?_⟩
      · rw [← f1s] at hw
        exact a2 w stk (s2 w stk (g2 w stk hw))
      · refine a3 (s3 (g3 ?_))
        intro w stk hw id hid
        rw [f1s] at hw
        rw [f1m]
        exact hb w stk hw id hid
  -- sharerSets cons-cons
  case _ =>
    intro e st set sets var vars ih4 ih3 st' nv ps h
    simp only [sharerSets] at h
    rcases hc : sharerChildren e set var st with _ | ⟨st1, nv1, ps1⟩ <;> rw [hc] at h
    · exact Option.noConfusion h
    simp only [Option.pure_def, Option.bind_eq_bind, Option.some_bind] at h
    rcases hs : sharerSets e sets vars st1 with _ | ⟨st2, nv2, ps2⟩ <;> rw [hs] at h
    · exact Option.noConfusion h
    simp only [Option.pure_def, Option.bind_eq_bind, Option.some_bind] at h
    obtain ⟨c1, c2, c3⟩ := ih4 st1 nv1 ps1 hc
    obtain ⟨d1, d2, d3⟩ := ih3 st1 st2 nv2 ps2 hs
    obtain ⟨rfl, -, -⟩ := h
    exact ⟨by omega, fun w stk hw => d2 w stk (c2 w stk hw), fun hb => d3 (c3 hb)⟩
  -- sharerSets fallthrough
  case _ =>
    intro sets e vars st hfall st' nv ps h
    match sets, vars with
    | [], vars =>
      simp only [sharerSets] at h
      obtain ⟨rfl, -, -⟩ := h
      exact ⟨le_refl _, fun w stk hw => hw, fun hb => hb⟩
    | s :: ss, [] =>
      simp only [sharerSets] at h
      obtain ⟨rfl, -, -⟩ := h
      exact ⟨le_refl _, fun w stk hw => hw, fun hb => hb⟩
    | s :: ss, v :: vs => exact (hfall s ss v vs rfl rfl).elim
  -- andTrees nil
  case _ =>
    intro st st' ps h
    simp only [andTrees] at h
    obtain ⟨rfl, -⟩ := h
    exact ⟨le_refl _, fun w stk hw => hw, fun hb => hb⟩
  -- andTrees cons
  case _ =>
    intro st t rest ih1 ih2 st' ps h
    simp only [andTrees] at h
    rcases h1 : toExpr_ t .Equivalence [] st with _ | ⟨st1, nv1, ps1⟩ <;> rw [h1] at h
    · exact Option.noConfusion h
    simp only [Option.pure_def, Option.bind_eq_bind, Option.some_bind] at h
    rcases h2 : andTrees rest st1 with _ | ⟨st2, ps2⟩ <;> rw [h2] at h
    · exact Option.noConfusion h
    simp only [Option.pure_def, Option.bind_eq_bind, Option.some_bind] at h
    obtain ⟨c1, c2, c3⟩ := ih1 st1 nv1 ps1 h1
    obtain ⟨d1, d2, d3⟩ := ih2 st1 st2 ps2 h2
    obtain ⟨rfl, -⟩ := h
    exact ⟨by omega, fun w stk hw => d2 w stk (c2 w stk hw), fun hb => d3 (c3 hb)⟩
  -- sharerChildren nil
  case _ =>
    intro e var st st' nv ps h
    simp only [sharerChildren] at h
    obtain ⟨rfl, -, -⟩ := h
    exact ⟨le_refl _, fun w stk hw => hw, fun hb => hb⟩
  -- sharerChildren Sharing cons
  case _ =>
    intro e var st tree rest ih1 ih4 st' nv ps h
    simp only [sharerChildren] at h
    rcases h1 : toExpr_ tree .Sharing [var] st with _ | ⟨st1, nv1, ps1⟩ <;> rw [h1] at h
    · exact Option.noConfusion h
    simp only [Option.pure_def, Option.bind_eq_bind, Option.some_bind] at h
    rcases h2 : sharerChildren e rest var st1 with _ | ⟨st2, nv2, ps2⟩ <;> rw [h2] at h
    · exact Option.noConfusion h
    simp only [Option.pure_def, Option.bind_eq_bind, Option.some_bind] at h
    obtain ⟨c1, c2, c3⟩ := ih1 st1 nv1 ps1 h1
    obtain ⟨d1, d2, d3⟩ := ih4 st1 st2 nv2 ps2 h2
    obtain ⟨rfl, -, -⟩ := h
    exact ⟨by omega, fun w stk hw => d2 w stk (c2 w stk hw), fun hb => d3 (c3 hb)⟩
  -- sharerChildren Equivalence, Transparent
  case _ =>
    intro var st tree rest ih1 ih4 st' nv ps h
    simp only [sharerChildren, if_pos rfl] at h
    rcases h1 : toExpr_ tree .Equivalence [] st with _ | ⟨st1, nv1, ps1⟩ <;> rw [h1] at h
    · exact Option.noConfusion h
    simp only [Option.pure_def, Option.bind_eq_bind, Option.some_bind] at h
    rcases h2 : sharerChildren .Transparent rest var st1 with _ | ⟨st2, nv2, ps2⟩ <;>
      rw [h2] at h
    · exact Option.noConfusion h
    simp only [Option.pure_def, Option.bind_eq_bind, Option.some_bind] at h
    obtain ⟨c1, c2, c3⟩ := ih1 st1 nv1 ps1 h1
    obtain ⟨d1, d2, d3⟩ := ih4 st1 st2 nv2 ps2 h2
    obtain ⟨rfl, -, -⟩ := h
    exact ⟨by omega, fun w stk hw => d2 w stk (c2 w stk hw), fun hb => d3 (c3 hb)⟩
  -- sharerChildren Equivalence, not Transparent
  case _ =>
    intro e var st tree rest hne ih1 ih4 st' nv ps h
    simp only [sharerChildren, if_neg hne] at h
    rcases h1 : toExpr_ tree .Equivalence [] st with _ | ⟨st1, nv1, ps1⟩ <;> rw [h1] at h
    · exact Option.noConfusion h
    simp only [Option.pure_def, Option.bind_eq_bind, Option.some_bind] at h
    rcases h2 : sharerChildren e rest var st1 with _ | ⟨st2, nv2, ps2⟩ <;> rw [h2] at h
    · exact Option.noConfusion h
    simp only [Option.pure_def, Option.bind_eq_bind, Option.some_bind] at h
    obtain ⟨c1, c2, c3⟩ := ih1 st1 nv1 ps1 h1
    obtain ⟨d1, d2, d3⟩ := ih4 st1 st2 nv2 ps2 h2
    obtain ⟨rfl, -, -⟩ := h
    exact ⟨by omega, fun w stk hw => d2 w stk (c2 w stk hw), fun hb => d3 (c3 hb)⟩

/-- Anaphoric identity on the concrete scenario tree `c3tree w` for an arbitrary spelling `w`:
the root `Leaf w` and the place-0 `Leaf w` (no shadow between them) both
receive identity-id 0; the `Leaf w` inside the `Explicit` node naming `w`
receives the fresh id 1 (≠ 0); and the place-2 `Leaf w`, translated after
the shadow has exited, receives the original id 0 again.  (The id-3 leaf
`Leaf w 1 [3]` is the fact emitted by the `Explicit` introduction itself.) -/
theorem scenario_anaphora (w : String) :
    toExpr (c3tree w) =
      some (.And [.Leaf w 0 [0, 1, 2], .Leaf w 0 [0], .Leaf w 1 [3],
        .Leaf w 1 [], .Leaf w 0 [2]], [0, 1, 2, 3])
    ∧ (1 : Nat) ≠ 0 := by
  refine ⟨?_, by simp⟩
  simp [toExpr, toExpr_, c3tree, c3shadow, sharerSets, sharerChildren,
    andTrees, explicitIntro, explicitPop, stLookup, stSet, stPush,
    allocSharingVars, collapseAnd, List.range']

/-- C3. Anaphoric identity, universally over all `to_expr` invocations:
(1) a `Leaf` translated while its spelling's id stack has top `id` emits
exactly `id` and leaves the state untouched — so two leaves with identical
spelling translated in sequence receive the same identity-id; (2) a first
occurrence allocates the fresh id `max_id` and installs it; (3) every
successful (sub)translation — in particular any material standing between
two same-spelling leaves, including complete `Explicit` nodes, but no
still-open shadow — preserves every present id stack exactly, so the later
leaf still sees the same id, and after an `Explicit` node exits the outer
id is restored; (4) entering an `Explicit` exposure naming `w` pushes the
fresh id `max_id` over the visible id `id`, and `max_id ≠ id` whenever the
table ids are bounded by `max_id`; (5)/(6) that bound holds in `to_expr`'s
initial state and is preserved by every translation step, so it holds at
every reachable state. -/
theorem anaphoric_identity :
    (∀ (w : String) (cb : ChainingBehavior) (cw : PredicateChaining)
        (vars : List Nat) (st : TState) (id : Nat) (stk : List Nat),
      stLookup st.symbolTable w = some (id :: stk) →
      toExpr_ (.Leaf ⟨w, cb⟩) cw vars st =
        some (st, [], [.Leaf w id vars]))
    ∧ (∀ (w : String) (cb : ChainingBehavior) (cw : PredicateChaining)
        (vars : List Nat) (st : TState),
      stLookup st.symbolTable w = none →
      toExpr_ (.Leaf ⟨w, cb⟩) cw vars st =
        some (⟨st.maxVar, st.maxId + 1, stSet st.symbolTable w [st.maxId]⟩,
          [], [.Leaf w st.maxId vars]))
    ∧ (∀ (t : PredicateTree) (cw : PredicateChaining) (vars : List Nat)
        (st st' : TState) (nv : List Nat) (ps : List Predicate)
        (w : String) (stk : List Nat),
      toExpr_ t cw vars st = some (st', nv, ps) →
      stLookup st.symbolTable w = some stk →
      stLookup st'.symbolTable w = some stk)
    ∧ (∀ (st : TState) (i : Nat) (vars : List Nat) (w : String)
        (cwi : PredicateChaining) (vars' co nvd : List Nat)
        (eps : List Predicate) (st' : TState) (id : Nat) (stk : List Nat),
      explicitIntro st i vars [(w, cwi)] = (vars', co, nvd, eps, st') →
      stLookup st.symbolTable w = some (id :: stk) →
      tableIdsBound st →
      stLookup st'.symbolTable w = some (st.maxId :: id :: stk)
        ∧ st.maxId ≠ id)
    ∧ tableIdsBound ⟨0, 0, []⟩
    ∧ (∀ (t : PredicateTree) (cw : PredicateChaining) (vars : List Nat)
        (st st' : TState) (nv : List Nat) (ps : List Predicate),
      toExpr_ t cw vars st = some (st', nv, ps) →
      tableIdsBound st → tableIdsBound st') := by
  refine ⟨?_, ?_, ?_, ?_, ?_, ?_⟩
  · intro w cb cw vars st id stk hlook
    simp [toExpr_, hlook]
  · intro w cb cw vars st hlook
    simp [toExpr_, hlook]
  · intro t cw vars st st' nv ps w stk h hw
    exact (toExpr_table t cw vars st st' nv ps h).2.1 w stk hw
  · intro st i vars w cwi vars' co nvd eps st' id stk hEI hw hb
    simp only [explicitIntro] at hEI
    rcases hv : vars[i]? with _ | old <;> simp only [hv] at hEI <;>
    · simp only [explicitIntro, Prod.mk.injEq] at hEI
      obtain ⟨-, -, -, -, h5⟩ := hEI
      subst h5
      have hid : id < st.maxId := hb w (id :: stk) hw id (by simp)
      constructor
      · simp only
        rw [stPush_self, hw]
        simp
      · omega
  · intro w stk h
    exact Option.noConfusion h
  · intro t cw vars st st' nv ps h hb
    exact (toExpr_table t cw vars st st' nv ps h).2.2 hb

/-- C3 witness: the universal anaphora theorem instantiated concretely —
a leaf with visible id 0 receives 0 from the state
`⟨0, 1, [("ba", [0])]⟩`; a complete `Explicit` node naming "ba" preserves
the entry `[0]`; entering that shadow pushes the fresh id 1 ≠ 0. -/
theorem anaphoric_identity_witness :
    toExpr_ (.Leaf ⟨"ba", ⟨0, .Sharing⟩⟩) .Equivalence [5]
        ⟨0, 1, [("ba", [0])]⟩ =
      some (⟨0, 1, [("ba", [0])]⟩, [], [.Leaf "ba" 0 [5]])
    ∧ stLookup (⟨1, 2, [("ba", [0])]⟩ : TState).symbolTable "ba" = some [0]
    ∧ (stLookup (⟨1, 2, [("ba", [1, 0])]⟩ : TState).symbolTable "ba" =
        some ((⟨0, 1, [("ba", [0])]⟩ : TState).maxId :: 0 :: [])
      ∧ (⟨0, 1, [("ba", [0])]⟩ : TState).maxId ≠ 0) := by
  have hb0 : tableIdsBound ⟨0, 1, [("ba", [0])]⟩ := by
    intro w stk h id hid
    simp only [stLookup] at h
    split at h
    · obtain ⟨rfl⟩ := Option.some.inj h
      simp only [List.mem_singleton] at hid
      subst hid
      decide
    · exact Option.noConfusion h
  refine ⟨anaphoric_identity.1 "ba" ⟨0, .Sharing⟩ .Equivalence [5]
      ⟨0, 1, [("ba", [0])]⟩ 0 [] rfl, ?_, ?_⟩
  · exact anaphoric_identity.2.2.1 (c3shadow "ba") .Equivalence []
      ⟨0, 1, [("ba", [0])]⟩ ⟨1, 2, [("ba", [0])]⟩ [0]
      [.Leaf "ba" 1 [0], .Leaf "ba" 1 []] "ba" [0] rfl rfl
  · exact anaphoric_identity.2.2.2.1 ⟨0, 1, [("ba", [0])]⟩ 0 [] "ba"
      .Sharing [] [] [0] [.Leaf "ba" 1 [0]] ⟨1, 2, [("ba", [1, 0])]⟩ 0 []
      rfl rfl hb0

/-- C6 (counterexample). The claim that every `and` sibling's result "is
wrapped as Exists over exactly the free variables it produced" fails when
the sibling produces no free variables: on `cexBareSibling` the sibling
`Leaf "ba"` is appended as the bare conjunct `Leaf "ba" 1 []`, not as an
`Exists` node (src/expr.rs lines 359-366). -/
theorem sibling_conjunction_counterexample :
    toExpr cexBareSibling = some (.And [.Leaf "ka" 0 [], .Leaf "ba" 1 []], [])
    ∧ ∀ (vs : List Nat) (p : Predicate),
        Predicate.Leaf "ba" 1 [] ≠ Predicate.Exists vs p :=
  ⟨rfl, fun _ _ h => Predicate.noConfusion h⟩

/-- C8. The translator's recursion is structural: each recursive call of
`to_expr_` on a `Binding` is on a strict structural subterm — the `root`,
a sharer child reached through `sharers`, or an `and` sibling. -/
theorem translation_structural_decrease
    (c : ChainingBehavior) (root : PredicateTree) (n : Bool) (e : Exposure)
    (sharers : List (List (PredicateChaining × PredicateTree)))
    (ands : List PredicateTree) :
    sizeOf root < sizeOf (PredicateTree.Binding c root n e sharers ands)
    ∧ (∀ s ∈ sharers, ∀ p ∈ s,
        sizeOf p.2 < sizeOf (PredicateTree.Binding c root n e sharers ands))
    ∧ (∀ a ∈ ands,
        sizeOf a < sizeOf (PredicateTree.Binding c root n e sharers ands)) := by
  refine ⟨?_, fun s hs p hp => ?_, fun a ha => ?_⟩
  · simp only [PredicateTree.Binding.sizeOf_spec]
    omega
  · have h1 : sizeOf p < sizeOf s := List.sizeOf_lt_of_mem hp
    have h2 : sizeOf s < sizeOf sharers := List.sizeOf_lt_of_mem hs
    have h3 : sizeOf p.2 < sizeOf p := by
      obtain ⟨x, y⟩ := p
      simp only [Prod.mk.sizeOf_spec]
      omega
    simp only [PredicateTree.Binding.sizeOf_spec]
    omega
  · have h1 : sizeOf a < sizeOf ands := List.sizeOf_lt_of_mem ha
    simp only [PredicateTree.Binding.sizeOf_spec]
    omega

/-- C8 witness: the structural decrease instantiated at a concrete
`Binding` with one sharer child and one `and` sibling. -/
theorem translation_structural_decrease_witness :
    sizeOf (PredicateTree.Leaf ⟨"ba", ⟨0, .Sharing⟩⟩) <
      sizeOf (PredicateTree.Binding ⟨0, .Sharing⟩
        (.Leaf ⟨"ba", ⟨0, .Sharing⟩⟩) false .Standard
        [[(.Sharing, .Leaf ⟨"ka", ⟨0, .Sharing⟩⟩)]]
        [.Leaf ⟨"ma", ⟨0, .Sharing⟩⟩])
    ∧ sizeOf (PredicateTree.Leaf ⟨"ka", ⟨0, .Sharing⟩⟩) <
      sizeOf (PredicateTree.Binding ⟨0, .Sharing⟩
        (.Leaf ⟨"ba", ⟨0, .Sharing⟩⟩) false .Standard
        [[(.Sharing, .Leaf ⟨"ka", ⟨0, .Sharing⟩⟩)]]
        [.Leaf ⟨"ma", ⟨0, .Sharing⟩⟩])
    ∧ sizeOf (PredicateTree.Leaf ⟨"ma", ⟨0, .Sharing⟩⟩) <
      sizeOf (PredicateTree.Binding ⟨0, .Sharing⟩
        (.Leaf ⟨"ba", ⟨0, .Sharing⟩⟩) false .Standard
        [[(.Sharing, .Leaf ⟨"ka", ⟨0, .Sharing⟩⟩)]]
        [.Leaf ⟨"ma", ⟨0, .Sharing⟩⟩]) := by
  have h := translation_structural_decrease ⟨0, .Sharing⟩
    (.Leaf ⟨"ba", ⟨0, .Sharing⟩⟩) false .Standard
    [[(.Sharing, .Leaf ⟨"ka", ⟨0, .Sharing⟩⟩)]]
    [.Leaf ⟨"ma", ⟨0, .Sharing⟩⟩]
  exact ⟨h.1,
    h.2.1 [(.Sharing, .Leaf ⟨"ka", ⟨0, .Sharing⟩⟩)] (by simp)
      (.Sharing, .Leaf ⟨"ka", ⟨0, .Sharing⟩⟩) (by simp),
    h.2.2 (.Leaf ⟨"ma", ⟨0, .Sharing⟩⟩) (by simp)⟩

/-- C4. Exposure monotonicity, for a `Binding` with root leaf `r` and a
single Equivalence-mode sharer child `c` at place 0, translated under an
`Equivalence` caller supplying the place variable `v`: under `Transparent`
exposure the child's fresh variables `cnv` are appended directly to the
parent's scope and the `Equivalent` wrapper contains no `Lambda`; under
`Standard` or `Modified` exposure a child that leaves free variables is
wrapped in a `Lambda` binding exactly those variables, which are not
propagated. -/
theorem exposure_monotonicity (r : PredicateWord) (c : PredicateTree)
    (v : Nat) (m : List GrammarVar) (st st1 st2 : TState)
    (rootPs : List Predicate) (cnv : List Nat) (cps : List Predicate)
    (hroot : toExpr_ (.Leaf r) .Equivalence [v] st = some (st1, [], rootPs))
    (hchild : toExpr_ c .Equivalence [] st1 = some (st2, cnv, cps)) :
    (toExpr_ (.Binding ⟨0, .Sharing⟩ (.Leaf r) false .Transparent
        [[(.Equivalence, c)]] []) .Equivalence [v] st
      = some (st2, cnv, rootPs ++ [.Equivalent v (collapseAnd cps)]))
    ∧ (cnv ≠ [] →
      toExpr_ (.Binding ⟨0, .Sharing⟩ (.Leaf r) false .Standard
          [[(.Equivalence, c)]] []) .Equivalence [v] st
        = some (st2, [],
            rootPs ++ [.Equivalent v (.Lambda cnv (collapseAnd cps))]))
    ∧ (cnv ≠ [] →
      toExpr_ (.Binding ⟨0, .Sharing⟩ (.Leaf r) false (.Modified m)
          [[(.Equivalence, c)]] []) .Equivalence [v] st
        = some (st2, [],
            rootPs ++ [.Equivalent v (.Lambda cnv (collapseAnd cps))])) := by
  refine ⟨?_, fun hnv => ?_, fun hnv => ?_⟩ <;>
  · simp [toExpr_, sharerSets, sharerChildren, andTrees, List.range'] at *
    rw [hroot]
    simp [hchild, *]

/-- C4 witness: the exposure-monotonicity theorem instantiated at a child
that leaves exactly one free variable. -/
theorem exposure_monotonicity_witness :
    (toExpr_ (.Binding ⟨0, .Sharing⟩ (.Leaf ⟨"ka", ⟨0, .Sharing⟩⟩) false
        .Transparent
        [[(.Equivalence, .Binding ⟨0, .Sharing⟩ (.Leaf ⟨"ba", ⟨0, .Sharing⟩⟩)
            false .Standard [[]] [])]] []) .Equivalence [5] ⟨0, 0, []⟩
      = some (⟨1, 2, [("ka", [0]), ("ba", [1])]⟩, [0],
          [Predicate.Leaf "ka" 0 [5]]
            ++ [.Equivalent 5 (collapseAnd [Predicate.Leaf "ba" 1 [0]])]))
    ∧ (toExpr_ (.Binding ⟨0, .Sharing⟩ (.Leaf ⟨"ka", ⟨0, .Sharing⟩⟩) false
        .Standard
        [[(.Equivalence, .Binding ⟨0, .Sharing⟩ (.Leaf ⟨"ba", ⟨0, .Sharing⟩⟩)
            false .Standard [[]] [])]] []) .Equivalence [5] ⟨0, 0, []⟩
      = some (⟨1, 2, [("ka", [0]), ("ba", [1])]⟩, [],
          [Predicate.Leaf "ka" 0 [5]]
            ++ [.Equivalent 5
                (.Lambda [0] (collapseAnd [Predicate.Leaf "ba" 1 [0]]))])) := by
  have h := exposure_monotonicity ⟨"ka", ⟨0, .Sharing⟩⟩
    (.Binding ⟨0, .Sharing⟩ (.Leaf ⟨"ba", ⟨0, .Sharing⟩⟩) false .Standard
      [[]] [])
    5 [] ⟨0, 0, []⟩ ⟨0, 1, [("ka", [0])]⟩ ⟨1, 2, [("ka", [0]), ("ba", [1])]⟩
    [Predicate.Leaf "ka" 0 [5]] [0] [Predicate.Leaf "ba" 1 [0]] rfl rfl
  exact ⟨h.1, h.2.1 (by simp)⟩

/-- C6 (amended). Sibling conjunction: every tree in a `Binding`'s `and`
set is translated in its own fresh empty scope (empty variable list, empty
predicate accumulator, and a state whose variable counter is at least the
counter at loop entry, so no variable of the enclosing `Binding` — all
allocated below that counter — is ever shared); its conjunct is `Exists`
over exactly the free variables it produced when there are any, and the
bare result otherwise. -/
theorem sibling_conjunction (as : List PredicateTree) (st st' : TState)
    (conjs : List Predicate) (h : andTrees as st = some (st', conjs)) :
    conjs.length = as.length
    ∧ ∀ (i : Nat) (t : PredicateTree), as[i]? = some t →
        ∃ stA stB nv ps conj,
          conjs[i]? = some conj
          ∧ st.maxVar ≤ stA.maxVar
          ∧ toExpr_ t .Equivalence [] stA = some (stB, nv, ps)
          ∧ conj = (if nv.isEmpty then collapseAnd ps
              else Predicate.Exists nv (collapseAnd ps))
          ∧ ∀ v ∈ nv, stA.maxVar ≤ v := by
  induction as generalizing st st' conjs with
  | nil =>
    simp only [andTrees, Option.some.injEq, Prod.mk.injEq] at h
    obtain ⟨-, rfl⟩ := h
    refine ⟨rfl, fun i t hit => ?_⟩
    simp at hit
  | cons a rest ih =>
    simp only [andTrees] at h
    rcases ha : toExpr_ a .Equivalence [] st with _ | ⟨st1, nv1, ps1⟩ <;> rw [ha] at h
    · exact Option.noConfusion h
    simp only [Option.pure_def, Option.bind_eq_bind, Option.some_bind] at h
    rcases hrest : andTrees rest st1 with _ | ⟨st2, rest'⟩ <;> rw [hrest] at h
    · exact Option.noConfusion h
    simp only [Option.some_bind, Option.some.injEq, Prod.mk.injEq] at h
    obtain ⟨-, rfl⟩ := h
    obtain ⟨ihl, ihp⟩ := ih st1 st2 rest' hrest
    have hfresh := toExpr_fresh a .Equivalence [] st st1 nv1 ps1 ha
    refine ⟨by simp [ihl], fun i t hit => ?_⟩
    match i with
    | 0 =>
      simp only [List.getElem?_cons_zero, Option.some.injEq] at hit
      subst hit
      exact ⟨st, st1, nv1, ps1,
        if nv1.isEmpty then collapseAnd ps1 else Predicate.Exists nv1 (collapseAnd ps1),
        by simp, le_refl _, ha, rfl, fun v hv => (hfresh.2 v hv).1⟩
    | Nat.succ j =>
      simp only [List.getElem?_cons_succ] at hit
      obtain ⟨stA, stB, nv, ps, conj, hc, hle, htr, hcj, hfr⟩ := ihp j t hit
      exact ⟨stA, stB, nv, ps, conj, by simpa using hc,
        le_trans hfresh.1 hle, htr, hcj, hfr⟩

/-- C6 witness: the sibling-conjunction characterisation instantiated at a
single bare-leaf sibling. -/
theorem sibling_conjunction_witness :
    ([Predicate.Leaf "ba" 0 []] : List Predicate).length =
      ([PredicateTree.Leaf ⟨"ba", ⟨0, .Sharing⟩⟩] : List PredicateTree).length
    ∧ ∀ (i : Nat) (t : PredicateTree),
        ([PredicateTree.Leaf ⟨"ba", ⟨0, .Sharing⟩⟩] : List PredicateTree)[i]? = some t →
        ∃ stA stB nv ps conj,
          ([Predicate.Leaf "ba" 0 []] : List Predicate)[i]? = some conj
          ∧ (⟨0, 0, []⟩ : TState).maxVar ≤ stA.maxVar
          ∧ toExpr_ t .Equivalence [] stA = some (stB, nv, ps)
          ∧ conj = (if nv.isEmpty then collapseAnd ps
              else Predicate.Exists nv (collapseAnd ps))
          ∧ ∀ v ∈ nv, stA.maxVar ≤ v :=
  sibling_conjunction [PredicateTree.Leaf ⟨"ba", ⟨0, .Sharing⟩⟩] ⟨0, 0, []⟩
    ⟨0, 1, [("ba", [0])]⟩ [Predicate.Leaf "ba" 0 []] rfl

/-- C10 witness: the amended involution instantiated at a concrete
well-formed tree. -/
theorem negate_involution_witness :
    ((Syn.PredicateTree.Negation .Short
          (.Leaf ⟨"ba", ⟨1, .Sharing⟩⟩)).negate .Long).negate .Long =
        Syn.PredicateTree.Negation .Short (.Leaf ⟨"ba", ⟨1, .Sharing⟩⟩)
    ∧ (Syn.PredicateTree.Negation .Short
          (.Leaf ⟨"ba", ⟨1, .Sharing⟩⟩)).negate .None =
        Syn.PredicateTree.Negation .Short (.Leaf ⟨"ba", ⟨1, .Sharing⟩⟩) :=
  negate_involution (Syn.PredicateTree.Negation .Short (.Leaf ⟨"ba", ⟨1, .Sharing⟩⟩))
    .Long (by simp [Syn.PredicateTree.negTopWellFormed])

/-! ### Lexer inversion lemmas and the lexer claims -/

theorem pjust_some {c : Char} {s : List Char} {v : Char} {rest : List Char}
    (h : pjust c s = some (v, rest)) : v = c := by
  unfold pjust at h
  rcases s with _ | ⟨c', s'⟩
  · exact Option.noConfusion h
  · simp only at h
    split at h
    · obtain ⟨rfl, -⟩ := h
      rfl
    · exact Option.noConfusion h

theorem pmap_some {α β : Type} {p : P α} {f : α → β} {s : List Char}
    {b : β} {rest : List Char} (h : pmap p f s = some (b, rest)) :
    ∃ a, p s = some (a, rest) ∧ b = f a := by
  unfold pmap at h
  rcases hp : p s with _ | ⟨a, r⟩ <;> rw [hp] at h
  · exact Option.noConfusion h
  · obtain ⟨rfl, rfl⟩ := h
    exact ⟨a, rfl, rfl⟩

theorem pmapOpt_some {α β : Type} {p : P α} {f : α → Option β} {s : List Char}
    {b : β} {rest : List Char} (h : pmapOpt p f s = some (b, rest)) :
    ∃ a, p s = some (a, rest) ∧ f a = some b := by
  unfold pmapOpt at h
  rcases hp : p s with _ | ⟨a, r⟩ <;> rw [hp] at h
  · exact Option.noConfusion h
  · dsimp only at h
    rcases hf : f a with _ | b' <;> rw [hf] at h
    · exact Option.noConfusion h
    · obtain ⟨rfl, rfl⟩ := h
      exact ⟨a, rfl, hf⟩

theorem pthen_some {α β : Type} {p : P α} {q : P β} {s : List Char}
    {ab : α × β} {rest : List Char} (h : pthen p q s = some (ab, rest)) :
    ∃ mid, p s = some (ab.1, mid) ∧ q mid = some (ab.2, rest) := by
  unfold pthen at h
  rcases hp : p s with _ | ⟨a, s1⟩ <;> rw [hp] at h
  · exact Option.noConfusion h
  · dsimp only at h
    rcases hq : q s1 with _ | ⟨b, s2⟩ <;> rw [hq] at h
    · exact Option.noConfusion h
    · obtain ⟨rfl, rfl⟩ := h
      exact ⟨s1, rfl, hq⟩

theorem pignore_then_some {α β : Type} {p : P α} {q : P β} {s : List Char}
    {b : β} {rest : List Char} (h : pignore_then p q s = some (b, rest)) :
    ∃ a mid, p s = some (a, mid) ∧ q mid = some (b, rest) := by
  obtain ⟨ab, hab, rfl⟩ := pmap_some h
  obtain ⟨mid, h1, h2⟩ := pthen_some hab
  exact ⟨ab.1, mid, h1, h2⟩

theorem porelse_some {α : Type} {p q : P α} {s : List Char} {r : α × List Char}
    (h : porelse p q s = some r) : p s = some r ∨ q s = some r := by
  unfold porelse at h
  rcases hp : p s with _ | r' <;> rw [hp] at h
  · exact Or.inr h
  · exact Or.inl h

theorem pchoice_some {α : Type} {ps : List (P α)} {s : List Char}
    {r : α × List Char} (h : pchoice ps s = some r) :
    ∃ p ∈ ps, p s = some r := by
  induction ps with
  | nil => exact Option.noConfusion h
  | cons p rest ih =>
    rcases porelse_some h with h1 | h1
    · exact ⟨p, by simp, h1⟩
    · obtain ⟨p', hm, hp'⟩ := ih h1
      exact ⟨p', by simp [hm], hp'⟩

theorem pmany1_some {α : Type} {p : P α} {s : List Char} {as : List α}
    {rest : List Char} (h : pmany1 p s = some (as, rest)) :
    ∃ a mid t, p s = some (a, mid) ∧ as = a :: t := by
  obtain ⟨x, hx, rfl⟩ := pmap_some h
  obtain ⟨mid, h1, -⟩ := pthen_some hx
  exact ⟨x.1, mid, x.2, h1, rfl⟩

theorem letterP_some {c : Char} {s : List Char} {v : Char} {rest : List Char}
    (h : letterP c s = some (v, rest)) : v = c := by
  obtain ⟨-, -, rfl⟩ := pmap_some h
  rfl

theorem vowel_some {s : List Char} {v : Char} {rest : List Char}
    (h : vowel s = some (v, rest)) : VOWELS.contains v = true := by
  obtain ⟨p, hp, hps⟩ := pchoice_some h
  obtain ⟨c, hc, rfl⟩ := List.mem_map.mp hp
  have := letterP_some hps
  subst this
  simpa using hc

theorem initial_pair_some {s : List Char} {pr : Char × Char} {rest : List Char}
    (h : initial_pair s = some (pr, rest)) :
    INITIAL_PAIRS.contains pr = true := by
  obtain ⟨p, hp, hps⟩ := pchoice_some h
  obtain ⟨q, hq, rfl⟩ := List.mem_map.mp hp
  obtain ⟨mid, h1, h2⟩ := pthen_some hps
  have e1 := pjust_some h1
  have e2 := pjust_some h2
  have : pr = q := Prod.ext e1 e2
  subst this
  simpa using hq

theorem pairs_second_not_vowel :
    ∀ p ∈ INITIAL_PAIRS, VOWELS.contains p.2 = false := by decide

theorem nonsonorant_root_shape {s : List Char} {w : List Char}
    {cb : ChainingBehavior} {rest : List Char}
    (h : nonsonorant_root s = some ((w, cb), rest)) :
    classifyNonsonorantRoot w = some (w, cb)
    ∧ ∃ c v t, w = c :: v :: t ∧ VOWELS.contains v = true := by
  obtain ⟨x, hx, hcl⟩ := pmapOpt_some h
  obtain ⟨mid, hA, -⟩ := pthen_some hx
  obtain ⟨y, hy, hx1⟩ := pmap_some hA
  obtain ⟨mid2, -, hv⟩ := pthen_some hy
  obtain ⟨v, mid3, t', hvw, hy2⟩ := pmany1_some hv
  have hvv := vowel_some hvw
  have hw : w = x.1 ++ x.2.1 ++ x.2.2.toList := by
    unfold classifyNonsonorantRoot at hcl
    rcases hg : (x.1 ++ x.2.1 ++ x.2.2.toList).getLast? with _ | last <;>
      rw [hg] at hcl
    · exact Option.noConfusion hcl
    · simp only [Option.map_some', Option.some.injEq, Prod.mk.injEq] at hcl
      exact hcl.1.symm
  constructor
  · rw [hw] at hcl ⊢
    exact hcl
  · refine ⟨y.1, v, (t' ++ x.2.1 ++ x.2.2.toList), ?_, hvv⟩
    rw [hw, hx1, hy2]
    simp

theorem initial_pair_root_shape {s : List Char} {w : List Char}
    {cb : ChainingBehavior} {rest : List Char}
    (h : initial_pair_root s = some ((w, cb), rest)) :
    classifyInitialPairRoot w = some (w, cb)
    ∧ ∃ a b t, w = a :: b :: t ∧ INITIAL_PAIRS.contains (a, b) = true := by
  obtain ⟨x, hx, hcl⟩ := pmapOpt_some h
  obtain ⟨mid, hAB, -⟩ := pthen_some hx
  obtain ⟨mid2, hA, -⟩ := pthen_some hAB
  obtain ⟨y, hy, hx1⟩ := pmap_some hA
  obtain ⟨mid3, hip, -⟩ := pthen_some hy
  have hmem := initial_pair_some hip
  have hw : w = x.1.1 ++ x.1.2.flatten ++ x.2.toList := by
    unfold classifyInitialPairRoot at hcl
    rcases hg : (x.1.1 ++ x.1.2.flatten ++ x.2.toList).getLast? with _ | last <;>
      rw [hg] at hcl
    · exact Option.noConfusion hcl
    · simp only [Option.map_some', Option.some.injEq, Prod.mk.injEq] at hcl
      exact hcl.1.symm
  constructor
  · rw [hw] at hcl ⊢
    exact hcl
  · refine ⟨y.1.1, y.1.2, (y.2 ++ x.1.2.flatten ++ x.2.toList), ?_, ?_⟩
    · rw [hw, hx1]
      simp
    · simpa using hmem

theorem rootP_chaining {s : List Char} {w : List Char} {cb : ChainingBehavior}
    {fam : PredicateFamily} {rest : List Char}
    (h : rootP s = some ((w, cb, fam), rest)) :
    ∃ last, w.getLast? = some last ∧
      cb = if startsWithInitialPair w ∧ w.length = 3
        then ⟨1, .Equivalence⟩ else specFinalPhonemeChaining last := by
  obtain ⟨-, mid, -, hroot⟩ := pignore_then_some h
  obtain ⟨x, hx, htag⟩ := pmap_some hroot
  have hx1 : x.1 = w ∧ x.2 = cb := by
    have h1 := congrArg (fun y => y.1) htag
    have h2 := congrArg (fun y => y.2.1) htag
    exact ⟨h1.symm, h2.symm⟩
  obtain ⟨hw, hcb⟩ := hx1
  rcases porelse_some hx with hns | hip
  · rw [show x = (x.1, x.2) from rfl, hw, hcb] at hns
    obtain ⟨hcl, c, v, t, hshape, hvv⟩ := nonsonorant_root_shape hns
    unfold classifyNonsonorantRoot at hcl
    rcases hg : w.getLast? with _ | last <;> rw [hg] at hcl
    · exact Option.noConfusion hcl
    · simp only [Option.map_some', Option.some.injEq, Prod.mk.injEq] at hcl
      refine ⟨last, rfl, ?_⟩
      have hnp : startsWithInitialPair w = false := by
        rw [hshape]
        unfold startsWithInitialPair
        by_contra hc
        simp only [Bool.not_eq_false] at hc
        have := pairs_second_not_vowel (c, v) (by simpa using hc)
        simp only at this
        rw [this] at hvv
        exact Bool.noConfusion hvv
      rw [hnp]
      simp only [Bool.false_eq_true, false_and, if_false]
      rw [← hcl.2]
      rfl
  · rw [show x = (x.1, x.2) from rfl, hw, hcb] at hip
    obtain ⟨hcl, a, b, t, hshape, hmem⟩ := initial_pair_root_shape hip
    unfold classifyInitialPairRoot at hcl
    rcases hg : w.getLast? with _ | last <;> rw [hg] at hcl
    · exact Option.noConfusion hcl
    · simp only [Option.map_some', Option.some.injEq, Prod.mk.injEq] at hcl
      refine ⟨last, rfl, ?_⟩
      have hsp : startsWithInitialPair w = true := by
        rw [hshape]
        unfold startsWithInitialPair
        simpa using hmem
      rw [hsp, ← hcl.2]
      by_cases hlen : w.length = 3
      · simp [hlen]
      · by_cases hi : last = 'i' <;>
          simp [hlen, hi, specFinalPhonemeChaining]

theorem particleP_class {s : List Char} {word : Word} {rest : List Char}
    (h : particleP s = some (word, rest)) :
    ∃ fam, word.wordClass = .Particle fam := by
  obtain ⟨x, -, rfl⟩ := pmap_some h
  exact ⟨x.2, rfl⟩

theorem wordP_chaining {s : List Char} {word : Word} {rest : List Char}
    (h : wordP s = some (word, rest)) (f : PredicateFamily)
    (cb : ChainingBehavior) (hclass : word.wordClass = .Predicate f cb) :
    ∃ last, word.word.toList.getLast? = some last ∧
      cb = if startsWithInitialPair word.word.toList
            ∧ word.word.toList.length = 3
        then ⟨1, .Equivalence⟩ else specFinalPhonemeChaining last := by
  rcases porelse_some h with hp | hp
  · obtain ⟨x, hx, rfl⟩ := pmap_some hp
    simp only [WordClass.Predicate.injEq] at hclass
    obtain ⟨-, rfl⟩ := hclass
    have : (String.mk x.1).toList = x.1 := rfl
    rw [this]
    exact rootP_chaining (show rootP s = some ((x.1, x.2.1, x.2.2), rest) from hx)
  · obtain ⟨fam, hfam⟩ := particleP_class hp
    rw [hfam] at hclass
    exact WordClass.noConfusion hclass

theorem manyAux_mem {α : Type} {p : P α} :
    ∀ (fuel : Nat) (s : List Char) (a : α), a ∈ (manyAux p fuel s).1 →
      ∃ s1 rest, p s1 = some (a, rest)
  | 0, s, a, h => by simp [manyAux] at h
  | fuel + 1, s, a, h => by
    rw [manyAux] at h
    rcases hp : p s with _ | ⟨b, s1⟩ <;> rw [hp] at h
    · simp at h
    · simp only at h
      rcases hm : manyAux p fuel s1 with ⟨as', s2⟩
      rw [hm] at h
      simp only [List.mem_cons] at h
      rcases h with rfl | h
      · exact ⟨s, s1, hp⟩
      · exact manyAux_mem fuel s1 a (by rw [hm]; exact h)

theorem lex_mem {s : List Char} {ws : List Word} (h : lex s = some ws) :
    ∀ w ∈ ws, ∃ s1 rest, wordP s1 = some (w, rest) := by
  intro w hw
  unfold lex at h
  rcases hm : pthen_ignore (pmany wordP) (pthen pause pend) s with _ | ⟨ws', rest'⟩ <;>
    rw [hm] at h
  · exact Option.noConfusion h
  · obtain ⟨rfl⟩ := h
    obtain ⟨x, hx, rfl⟩ := pmap_some hm
    obtain ⟨mid, h1, -⟩ := pthen_some hx
    have h1' : manyAux wordP (s.length + 1) s = (x.1, mid) := by
      unfold pmany at h1
      exact Option.some.inj h1
    refine manyAux_mem (s.length + 1) s w ?_
    rw [h1']
    exact hw

/-- C2 (amended). For every input accepted by the lexer, the
`ChainingBehavior` attached to a predicate (content-root) token is the
spec's final-phoneme table — final `i` gives Equivalence at place 1, any
other final vowel Sharing at place 1, a final consonant Sharing at place 0
— except that a root beginning with a legal initial consonant pair whose
whole spelling is exactly 3 letters long is classified Equivalence at
place 1 regardless of its final vowel. -/
theorem root_final_phoneme_chaining (s : List Char) (ws : List Word)
    (hlex : lex s = some ws) (w : Word) (hw : w ∈ ws)
    (f : PredicateFamily) (cb : ChainingBehavior)
    (hclass : w.wordClass = .Predicate f cb) :
    ∃ last, w.word.toList.getLast? = some last ∧
      cb = if startsWithInitialPair w.word.toList ∧ w.word.toList.length = 3
        then ⟨1, .Equivalence⟩ else specFinalPhonemeChaining last := by
  obtain ⟨s1, rest, hword⟩ := lex_mem hlex w hw
  exact wordP_chaining hword f cb hclass

/-- C2 (counterexample). The root "bza" is accepted by the lexer, ends in
the vowel `a` (not `i`), yet its chaining behavior is Equivalence at place
1, where the claim's final-phoneme table demands Sharing at place 1 —
the `w.len() == 3` special case of `initial_pair_root`
(src/lexer.rs line 520). -/
theorem final_phoneme_counterexample :
    lex "bza".toList =
      some [⟨"bza", .Predicate .Root ⟨1, .Equivalence⟩⟩]
    ∧ "bza".toList.getLast? = some 'a'
    ∧ specFinalPhonemeChaining 'a' = ⟨1, .Sharing⟩
    ∧ (⟨1, .Equivalence⟩ : ChainingBehavior) ≠ ⟨1, .Sharing⟩ :=
  ⟨rfl, rfl, rfl, by decide⟩

/-- C2 witness: the amended classification instantiated at the accepted
root "bza". -/
theorem root_final_phoneme_chaining_witness :
    ∃ last, "bza".toList.getLast? = some last ∧
      (⟨1, .Equivalence⟩ : ChainingBehavior) =
        if startsWithInitialPair "bza".toList ∧ "bza".toList.length = 3
        then ⟨1, .Equivalence⟩ else specFinalPhonemeChaining last :=
  root_final_phoneme_chaining "bza".toList
    [⟨"bza", .Predicate .Root ⟨1, .Equivalence⟩⟩] rfl
    ⟨"bza", .Predicate .Root ⟨1, .Equivalence⟩⟩ (by simp)
    .Root ⟨1, .Equivalence⟩ rfl

/-- C7 (code bug). Round-trip lexing fails: the accepted input "seha"
lexes to a single `si`-family word whose recorded spelling is "sea" — the
`si` map (src/lexer.rs lines 321-325) drops the consumed `h` marker when
building the spelling — and re-lexing that rendered spelling "sea" yields
a word with a different classification (`Modified [0,1]` instead of
`Modified [0]`). -/
theorem roundtrip_lexing_code_bug :
    lex "seha".toList =
      some [⟨"sea", .Particle (.Si (.Modified [0]) ⟨1, .Sharing⟩)⟩]
    ∧ lex "sea".toList =
      some [⟨"sea", .Particle (.Si (.Modified [0, 1]) ⟨1, .Sharing⟩)⟩]
    ∧ WordClass.Particle (.Si (.Modified [0]) ⟨1, .Sharing⟩)
        ≠ .Particle (.Si (.Modified [0, 1]) ⟨1, .Sharing⟩) :=
  ⟨rfl, rfl, by decide⟩

end Eberban
